import Mathlib

/-!
Shallow embedding of `src/matrix.rs` from `aoclib-rs`: an exact-rational
matrix engine (rows of rationals, Gaussian elimination to REF/RREF, matrix
addition and multiplication).  Rows are `List ℚ`, matrices are lists of rows;
`num_rational::Rational64` values are modelled as `ℚ` (the spec treats the
scalar type as an exact rational primitive).  Fallible operations return
`Except String` with the source's error messages; the panicking paths inside
the elimination pipeline (division by a zero pivot, the `.unwrap()` on row
addition) are modelled by `Option`, `none` standing for a panic.
-/

namespace Aoclib

/-- The scalar entries of `RowVec` (`num_rational::Rational64`, treated as an
exact rational). -/
abbrev Row := List ℚ

/-- Source type `Matrix`: a list of rows.  `Matrix::new` documents the
validity contract: no empty rows, and all rows of equal length. -/
abbrev Mat := List Row

/-- Validity contract of `Matrix::new`: every row has length `W`.  (The
source additionally requires rows to be non-empty; theorems that need it take
`0 < W` separately.) -/
def Rect (m : Mat) (W : ℕ) : Prop := ∀ r ∈ m, r.length = W

namespace RowVec

/-- Source `RowVec::zeros`. -/
def zeros (len : ℕ) : Row := List.replicate len (0 : ℚ)

/-- Source `RowVec::add_assign`: element-wise addition, returning the
source's error when the two rows have different lengths. -/
def add_assign (a b : Row) : Except String Row :=
  if a.length ≠ b.length then
    .error ("addition of RowVecs of different sizes: " ++ toString a.length ++
      " vs " ++ toString b.length)
  else
    .ok (List.zipWith (· + ·) a b)

/-- Source `impl MulAssign<R64> for RowVec`: multiply every entry by a
scalar. -/
def mul_assign (a : Row) (c : ℚ) : Row := a.map (· * c)

/-- Source `RowVec::leader_col`: the index of the first nonzero entry
(`position(|e| e != 0)`), or `none` for an all-zero or empty row. -/
def leader_col : Row → Option ℕ
  | [] => none
  | a :: as => if a ≠ 0 then some 0 else (leader_col as).map (· + 1)

/-- Source `RowVec::normalize`: if the leader is not exactly `1`, multiply
the row by the leader's reciprocal. -/
def normalize (r : Row) : Row :=
  match leader_col r with
  | none => r
  | some lc => if r.getD lc 0 ≠ 1 then mul_assign r (r.getD lc 0)⁻¹ else r

end RowVec

namespace Matrix

/-- Row `j` of a matrix (`self.0[j]`).  An out-of-range index, which panics
in the source, reads as the empty row here; every theorem keeps its indices
in range. -/
def rowD (m : Mat) (j : ℕ) : Row := m.getD j []

/-- Entry `(j, i)` of a matrix, with the same out-of-range convention as
`rowD`. -/
def entry (m : Mat) (j i : ℕ) : ℚ := (rowD m j).getD i 0

/-- The comparator closure inside source `Matrix::leader_sort`: scan the
columns left to right; at the first column where exactly one of the two rows
is nonzero, the nonzero row sorts earlier.  The source iterates the columns
of `a` and indexes `b[i]` (all rows of a valid matrix have equal length, so
the loop compares the rows position by position); the two mixed-length
equations below pad the shorter row with zeros, extending the comparator to a
total preorder on all rows while agreeing with the source on every pair of
equal-length rows. -/
def row_cmp : Row → Row → Ordering
  | [], [] => .eq
  | [], b :: bs => if b ≠ 0 then .gt else row_cmp [] bs
  | a :: as, [] => if a ≠ 0 then .lt else row_cmp as []
  | a :: as, b :: bs =>
    if a = 0 ∧ b ≠ 0 then .gt
    else if b = 0 ∧ a ≠ 0 then .lt
    else row_cmp as bs

/-- The non-strict order induced by the `leader_sort` comparator: `a` may
appear no later than `b` exactly when the comparator does not answer
`Greater`. -/
def rowLe (a b : Row) : Prop := row_cmp a b ≠ Ordering.gt

instance : DecidableRel rowLe :=
  fun a b => inferInstanceAs (Decidable (row_cmp a b ≠ Ordering.gt))

/-- Source `Matrix::leader_sort`: `self.0.sort_by(comparator)`.  Rust's
`sort_by` is a stable sort, and a stable sort's output is uniquely determined
by the comparator (a total preorder) and the input order, so the stable
`insertionSort` computes the same list. -/
def leader_sort (m : Mat) : Mat := List.insertionSort rowLe m

/-- Source `Matrix::eliminate`.  `none` models the two panics on this path,
in source order: the division `-other[lc] / selected[lc]` when the pivot is
zero (`num_rational` division by zero panics), and the `.unwrap()` on
`RowVec::add_assign` when the two rows have different lengths. -/
def eliminate (m : Mat) (selected_row other_row leader_col : ℕ) : Option Mat :=
  let o := rowD m other_row
  let s := rowD m selected_row
  if o.getD leader_col 0 = 0 then some m
  else if s.getD leader_col 0 = 0 then none
  else if s.length ≠ o.length then none
  else
    some (m.set other_row
      (List.zipWith (· + ·) o
        (RowVec.mul_assign s (-(o.getD leader_col 0) / s.getD leader_col 0))))

/-- Source `Matrix::eliminate_below_leader`: eliminate at the leader column
of `row` in every row strictly below it. -/
def eliminate_below_leader (m : Mat) (row : ℕ) : Option Mat :=
  match RowVec.leader_col (rowD m row) with
  | none => some m
  | some lc =>
    (List.range' (row + 1) (m.length - (row + 1))).foldlM
      (fun acc i => eliminate acc row i lc) m

/-- Source `Matrix::eliminate_above_leader`: eliminate at the leader column
of `row` in every row strictly above it. -/
def eliminate_above_leader (m : Mat) (row : ℕ) : Option Mat :=
  match RowVec.leader_col (rowD m row) with
  | none => some m
  | some lc =>
    (List.range row).foldlM (fun acc i => eliminate acc row i lc) m

/-- Source `Matrix::normalize`: normalize every row. -/
def normalize (m : Mat) : Mat := m.map RowVec.normalize

/-- Source `Matrix::ref`: sort, eliminate below every row's leader in index
order, sort again. -/
def ref (m : Mat) : Option Mat := do
  let m1 := leader_sort m
  let m2 ← (List.range m1.length).foldlM (fun acc row => eliminate_below_leader acc row) m1
  pure (leader_sort m2)

/-- Source `Matrix::rref`: `ref`, eliminate above every row's leader in index
order, sort, normalize. -/
def rref (m : Mat) : Option Mat := do
  let m1 ← ref m
  let m2 ← (List.range m1.length).foldlM (fun acc row => eliminate_above_leader acc row) m1
  pure (normalize (leader_sort m2))

/-- The row loop at the end of source `Matrix::add_assign`: rows are mutated
one at a time and a row-level error aborts the loop with `?`, returning the
state reached so far. -/
def add_assign_rows (a b : Mat) (i : ℕ) : Mat × Except String Unit :=
  if _h : i < a.length then
    match RowVec.add_assign (rowD a i) (rowD b i) with
    | .error e => (a, .error e)
    | .ok r => add_assign_rows (a.set i r) b (i + 1)
  else (a, .ok ())
termination_by a.length - i
decreasing_by simp only [List.length_set]; omega

/-- Source `Matrix::add_assign`: returns the final state of `self` together
with the result. -/
def add_assign (a b : Mat) : Mat × Except String Unit :=
  if a.length ≠ b.length then
    (a, .error ("addition of matrices of different heights: " ++ toString a.length ++
      " vs " ++ toString b.length))
  else if a.isEmpty then (a, .ok ())
  else if (rowD a 0).length ≠ (rowD b 0).length then
    (a, .error ("addition of matrices of different widths: " ++ toString (rowD a 0).length ++
      " vs " ++ toString (rowD b 0).length))
  else if (rowD a 0).isEmpty then (a, .ok ())
  else add_assign_rows a b 0

/-- Source `Matrix::zeros`. -/
def zeros (rows cols : ℕ) : Mat :=
  if rows = 0 ∨ cols = 0 then [] else List.replicate rows (RowVec.zeros cols)

/-- Functional form of the source's `new.0[j][i] = v` update. -/
def setEntry (m : Mat) (j i : ℕ) (v : ℚ) : Mat := m.set j ((rowD m j).set i v)

/-- Source `Matrix::matrix_mul`: dimension checks, then the triple
accumulation loop over a zero-initialized output (loop order `i`, `j`, `k` as
in the source). -/
def matrix_mul (a b : Mat) : Except String Mat :=
  if a.isEmpty ∧ b.isEmpty then .ok []
  else if a.isEmpty then .error "multiplication of empty matrix with non-empty matrix"
  else if (rowD a 0).length ≠ b.length then
    .error ("multiplication of incompatible matrices: lhs width " ++
      toString (rowD a 0).length ++ " vs rhs height " ++ toString b.length)
  else
    .ok ((List.range (rowD b 0).length).foldl (fun n i =>
      (List.range a.length).foldl (fun n j =>
        (List.range (rowD a 0).length).foldl (fun n k =>
          setEntry n j i (entry n j i + entry a j k * entry b k i)) n) n)
      (zeros a.length (rowD b 0).length))

end Matrix

/-! ### Specification predicates used by the theorems -/

/-- A witness that the comparator answers `Greater`: a first column whose
zero-pattern distinguishes the rows, with `a` zero and `b` nonzero there
(rows are read zero-padded, matching `row_cmp`). -/
def GtWitness (a b : Row) : Prop :=
  ∃ k, a.getD k 0 = 0 ∧ b.getD k 0 ≠ 0 ∧ ∀ i < k, (a.getD i 0 = 0 ↔ b.getD i 0 = 0)

/-- Every row strictly below a row `i < k` is zero at `i`'s leader column. -/
def BelowInv (m : Mat) (k : ℕ) : Prop :=
  ∀ i < k, ∀ c, RowVec.leader_col (m.getD i []) = some c →
    ∀ j, i < j → (m.getD j []).getD c 0 = 0

/-- Echelon shape: leader columns strictly increase down the rows, and a row
below an all-zero row is all-zero. -/
def StrictEchelon (m : Mat) : Prop :=
  (∀ i j ci cj, i < j → RowVec.leader_col (m.getD i []) = some ci →
    RowVec.leader_col (m.getD j []) = some cj → ci < cj) ∧
  (∀ i j, i < j → j < m.length → RowVec.leader_col (m.getD i []) = none →
    RowVec.leader_col (m.getD j []) = none)

/-- Every row strictly above a row `r < k` is zero at `r`'s leader column. -/
def AboveInv (m : Mat) (k : ℕ) : Prop :=
  ∀ r < k, ∀ c, RowVec.leader_col (m.getD r []) = some c →
    ∀ j, j < r → (m.getD j []).getD c 0 = 0

/-- The reduced row echelon shape: strict echelon ordering, every leader
entry exactly 1, and every other row zero in each leader's column. -/
def RREFForm (m : Mat) : Prop :=
  StrictEchelon m ∧
  (∀ i c, RowVec.leader_col (m.getD i []) = some c → (m.getD i []).getD c 0 = 1) ∧
  (∀ i c, RowVec.leader_col (m.getD i []) = some c →
    ∀ j, j ≠ i → (m.getD j []).getD c 0 = 0)

/-! ### Basic list helpers -/

theorem getD_set_eq {α : Type} (l : List α) (i : ℕ) (v d : α) (h : i < l.length) :
    (l.set i v).getD i d = v := by
  simp [List.getD_eq_getElem?_getD, List.getElem?_set_self h]

theorem getD_set_ne {α : Type} (l : List α) {i j : ℕ} (v d : α) (h : i ≠ j) :
    (l.set i v).getD j d = l.getD j d := by
  simp [List.getD_eq_getElem?_getD, List.getElem?_set_ne h]

theorem getD_eq_getElem {α : Type} (l : List α) (i : ℕ) (d : α) (h : i < l.length) :
    l.getD i d = l[i] := by
  simp [List.getD_eq_getElem?_getD, List.getElem?_eq_getElem h]

/-! ### Row-level lemmas -/

theorem mul_assign_length (r : Row) (c : ℚ) : (RowVec.mul_assign r c).length = r.length := by
  simp [RowVec.mul_assign]

theorem mul_assign_getD (r : Row) (c : ℚ) (i : ℕ) :
    (RowVec.mul_assign r c).getD i 0 = r.getD i 0 * c := by
  induction r generalizing i with
  | nil => simp [RowVec.mul_assign]
  | cons a as ih =>
    cases i with
    | zero => simp [RowVec.mul_assign]
    | succ n => simpa [RowVec.mul_assign] using ih n

theorem zipWith_add_getD (a b : Row) (h : a.length = b.length) (i : ℕ) :
    (List.zipWith (· + ·) a b).getD i 0 = a.getD i 0 + b.getD i 0 := by
  induction a generalizing b i with
  | nil =>
    have hb : b = [] := List.length_eq_zero.mp h.symm
    subst hb; simp
  | cons x xs ih =>
    cases b with
    | nil => simp at h
    | cons y ys =>
      cases i with
      | zero => simp
      | succ n => simpa using ih ys (by simpa using h) n

/-! ### Leader-column lemmas -/

theorem leader_col_lt {r : Row} {c : ℕ} (h : RowVec.leader_col r = some c) : c < r.length := by
  induction r generalizing c with
  | nil => simp [RowVec.leader_col] at h
  | cons a as ih =>
    simp only [RowVec.leader_col] at h
    split at h
    · simp only [Option.some.injEq] at h
      simp only [List.length_cons]
      omega
    · obtain ⟨c0, hc0, rfl⟩ := Option.map_eq_some'.mp h
      have := ih hc0
      simp only [List.length_cons]
      omega

theorem leader_col_ne_zero {r : Row} {c : ℕ} (h : RowVec.leader_col r = some c) :
    r.getD c 0 ≠ 0 := by
  induction r generalizing c with
  | nil => simp [RowVec.leader_col] at h
  | cons a as ih =>
    simp only [RowVec.leader_col] at h
    split at h
    · simp only [Option.some.injEq] at h
      subst h
      simpa using ‹a ≠ 0›
    · obtain ⟨c0, hc0, rfl⟩ := Option.map_eq_some'.mp h
      simpa using ih hc0

theorem leader_col_zero_before {r : Row} {c : ℕ} (h : RowVec.leader_col r = some c)
    {i : ℕ} (hi : i < c) : r.getD i 0 = 0 := by
  induction r generalizing c i with
  | nil => simp [RowVec.leader_col] at h
  | cons a as ih =>
    simp only [RowVec.leader_col] at h
    split at h
    · simp only [Option.some.injEq] at h
      omega
    · obtain ⟨c0, hc0, rfl⟩ := Option.map_eq_some'.mp h
      rename_i ha
      cases i with
      | zero =>
        simpa using by push_neg at ha; exact ha
      | succ n => simpa using ih hc0 (by omega)

theorem leader_col_none_iff {r : Row} :
    RowVec.leader_col r = none ↔ ∀ x ∈ r, x = 0 := by
  induction r with
  | nil => simp [RowVec.leader_col]
  | cons a as ih =>
    simp only [RowVec.leader_col, List.mem_cons]
    constructor
    · intro h
      split at h
      · simp at h
      · rename_i ha
        push_neg at ha
        intro x hx
        rcases hx with rfl | hx
        · exact ha
        · exact ih.mp (by simpa using h) x hx
    · intro h
      have ha : a = 0 := h a (Or.inl rfl)
      rw [if_neg (by simpa using ha)]
      simp [ih.mpr fun x hx => h x (Or.inr hx)]

theorem leader_col_none_getD {r : Row} (h : RowVec.leader_col r = none) (i : ℕ) :
    r.getD i 0 = 0 := by
  rcases Nat.lt_or_ge i r.length with hi | hi
  · rw [getD_eq_getElem r i 0 hi]
    exact leader_col_none_iff.mp h _ (List.getElem_mem hi)
  · exact List.getD_eq_default _ _ hi

theorem leader_col_eq_some {r : Row} {c : ℕ} (h1 : c < r.length) (h2 : r.getD c 0 ≠ 0)
    (h3 : ∀ i < c, r.getD i 0 = 0) : RowVec.leader_col r = some c := by
  induction r generalizing c with
  | nil => simp at h1
  | cons a as ih =>
    cases c with
    | zero =>
      simp only [List.getD_cons_zero] at h2
      simp [RowVec.leader_col, h2]
    | succ n =>
      have ha : a = 0 := by simpa using h3 0 (Nat.succ_pos n)
      simp only [RowVec.leader_col, ha]
      rw [if_neg (by simp)]
      have := @ih n (by simpa using h1) (by simpa using h2)
        (fun i hi => by simpa using h3 (i + 1) (by omega))
      simp [this]

/-! ### The `leader_sort` comparator as a total preorder -/

theorem row_cmp_swap (a b : Row) : Matrix.row_cmp b a = (Matrix.row_cmp a b).swap := by
  induction a, b using Matrix.row_cmp.induct with
  | case1 => simp [Matrix.row_cmp, Ordering.swap]
  | case2 b bs hb => simp [Matrix.row_cmp, hb, Ordering.swap]
  | case3 b bs hb ih =>
    push_neg at hb
    subst hb
    simpa [Matrix.row_cmp] using ih
  | case4 a as ha => simp [Matrix.row_cmp, ha, Ordering.swap]
  | case5 a as ha ih =>
    push_neg at ha
    subst ha
    simpa [Matrix.row_cmp] using ih
  | case6 a as b bs hab => simp [Matrix.row_cmp, hab, hab.1, hab.2, Ordering.swap]
  | case7 a as b bs hab1 hab2 => simp [Matrix.row_cmp, hab1, hab2, hab2.1, hab2.2, Ordering.swap]
  | case8 a as b bs h1 h2 ih =>
    simp only [Matrix.row_cmp, if_neg h1, if_neg h2]
    exact ih

theorem row_cmp_gt_of_lt {a b : Row} (h : Matrix.row_cmp b a = .lt) :
    Matrix.row_cmp a b = .gt := by
  have hs := row_cmp_swap b a
  rw [h] at hs
  simpa [Ordering.swap] using hs

theorem gt_witness_congr {a a2 b b2 : Row} (ha : ∀ i, a.getD i 0 = a2.getD i 0)
    (hb : ∀ i, b.getD i 0 = b2.getD i 0) : GtWitness a b ↔ GtWitness a2 b2 := by
  unfold GtWitness
  constructor <;> rintro ⟨k, h1, h2, h3⟩ <;> refine ⟨k, ?_, ?_, fun i hi => ?_⟩ <;>
    simp_all [ha, hb]

theorem gt_witness_cons {a0 b0 : ℚ} (as bs : Row) (h0 : a0 = 0 ↔ b0 = 0) :
    GtWitness (a0 :: as) (b0 :: bs) ↔ GtWitness as bs := by
  constructor
  · rintro ⟨k, h1, h2, h3⟩
    cases k with
    | zero =>
      simp only [List.getD_cons_zero] at h1 h2
      exact absurd (h0.mp h1) h2
    | succ n =>
      exact ⟨n, by simpa using h1, by simpa using h2,
        fun i hi => by simpa using h3 (i + 1) (by omega)⟩
  · rintro ⟨k, h1, h2, h3⟩
    refine ⟨k + 1, by simpa using h1, by simpa using h2, fun i hi => ?_⟩
    cases i with
    | zero => simpa using h0
    | succ n => simpa using h3 n (by omega)

theorem getD_pad_nil (i : ℕ) : (([] : Row)).getD i 0 = ((0 : ℚ) :: []).getD i 0 := by
  cases i <;> simp

theorem row_cmp_gt_iff (a b : Row) : Matrix.row_cmp a b = .gt ↔ GtWitness a b := by
  induction a, b using Matrix.row_cmp.induct with
  | case1 =>
    constructor
    · intro h; exact absurd h (by simp [Matrix.row_cmp])
    · rintro ⟨k, _, h2, _⟩; simp at h2
  | case2 b bs hb =>
    constructor
    · intro _; exact ⟨0, by simp, by simpa using hb, by omega⟩
    · intro _; simp [Matrix.row_cmp, if_pos hb]
  | case3 b bs hb ih =>
    push_neg at hb
    subst hb
    have hstep : Matrix.row_cmp [] ((0 : ℚ) :: bs) = Matrix.row_cmp [] bs := by
      simp [Matrix.row_cmp]
    rw [hstep, ih]
    have h1 : GtWitness [] ((0 : ℚ) :: bs) ↔ GtWitness ((0 : ℚ) :: []) ((0 : ℚ) :: bs) :=
      gt_witness_congr getD_pad_nil (fun i => rfl)
    rw [h1, gt_witness_cons ([] : Row) bs (by simp)]
  | case4 a as ha =>
    constructor
    · intro h
      rw [show Matrix.row_cmp (a :: as) [] = .lt from by simp [Matrix.row_cmp, if_pos ha]] at h
      exact absurd h (by simp)
    · rintro ⟨k, _, h2, _⟩; simp at h2
  | case5 a as ha ih =>
    push_neg at ha
    subst ha
    have hstep : Matrix.row_cmp ((0 : ℚ) :: as) [] = Matrix.row_cmp as [] := by
      simp [Matrix.row_cmp]
    rw [hstep, ih]
    have h1 : GtWitness ((0 : ℚ) :: as) [] ↔ GtWitness ((0 : ℚ) :: as) ((0 : ℚ) :: []) :=
      gt_witness_congr (fun i => rfl) getD_pad_nil
    rw [h1, gt_witness_cons as ([] : Row) (by simp)]
  | case6 a as b bs hab =>
    constructor
    · intro _; exact ⟨0, by simpa using hab.1, by simpa using hab.2, by omega⟩
    · intro _; simp [Matrix.row_cmp, if_pos hab]
  | case7 a as b bs hab1 hab2 =>
    constructor
    · intro h
      rw [show Matrix.row_cmp (a :: as) (b :: bs) = .lt from by
        simp [Matrix.row_cmp, if_neg hab1, if_pos hab2]] at h
      exact absurd h (by simp)
    · rintro ⟨k, h1, h2, h3⟩
      cases k with
      | zero =>
        simp only [List.getD_cons_zero] at h1
        exact (hab2.2 h1).elim
      | succ n =>
        have h4 := h3 0 (by omega)
        simp only [List.getD_cons_zero] at h4
        exact (hab2.2 (h4.mpr hab2.1)).elim
  | case8 a as b bs hab1 hab2 ih =>
    have h0 : (a = 0) ↔ (b = 0) := by
      constructor
      · intro h; by_contra hb; exact hab1 ⟨h, hb⟩
      · intro h; by_contra ha; exact hab2 ⟨h, ha⟩
    have hstep : Matrix.row_cmp (a :: as) (b :: bs) = Matrix.row_cmp as bs := by
      simp only [Matrix.row_cmp, if_neg hab1, if_neg hab2]
    rw [hstep, ih, gt_witness_cons as bs h0]

theorem gt_witness_trans {a b c : Row} (hab : ¬GtWitness a b) (hbc : ¬GtWitness b c) :
    ¬GtWitness a c := by
  rintro ⟨k, hak, hck, hagree⟩
  classical
  by_cases hall : ∀ i, i ≤ k → (b.getD i 0 = 0 ↔ a.getD i 0 = 0)
  · exact hbc ⟨k, (hall k le_rfl).mpr hak, hck,
      fun i hi => ((hall i (by omega)).trans (hagree i hi))⟩
  · obtain ⟨i0, hi0⟩ := not_forall.mp hall
    obtain ⟨hi0k, hi0ne⟩ := Classical.not_imp.mp hi0
    have hexQ : ∃ i, ¬(b.getD i 0 = 0 ↔ a.getD i 0 = 0) := ⟨i0, hi0ne⟩
    have hjne : ¬(b.getD (Nat.find hexQ) 0 = 0 ↔ a.getD (Nat.find hexQ) 0 = 0) :=
      Nat.find_spec hexQ
    have hjk : Nat.find hexQ ≤ k := le_trans (Nat.find_min' hexQ hi0ne) hi0k
    have hmin : ∀ i < Nat.find hexQ, (b.getD i 0 = 0 ↔ a.getD i 0 = 0) := fun i hi =>
      of_not_not (Nat.find_min hexQ hi)
    by_cases haj : a.getD (Nat.find hexQ) 0 = 0
    · have hbj : b.getD (Nat.find hexQ) 0 ≠ 0 := fun hbj => hjne (iff_of_true hbj haj)
      exact hab ⟨Nat.find hexQ, haj, hbj, fun i hi => (hmin i hi).symm⟩
    · have hbj : b.getD (Nat.find hexQ) 0 = 0 := by
        by_contra hbj
        exact hjne (iff_of_false hbj haj)
      have hjltk : Nat.find hexQ < k := by
        rcases Nat.eq_or_lt_of_le hjk with h | h
        · exact absurd (by rw [h]; exact hak) haj
        · exact h
      have hcj : c.getD (Nat.find hexQ) 0 ≠ 0 := fun hcj => haj ((hagree _ hjltk).mpr hcj)
      exact hbc ⟨Nat.find hexQ, hbj, hcj, fun i hi =>
        (hmin i hi).trans (hagree i (by omega))⟩

theorem rowLe_total (a b : Row) : Matrix.rowLe a b ∨ Matrix.rowLe b a := by
  unfold Matrix.rowLe
  by_cases h : Matrix.row_cmp a b = .gt
  · right
    rw [row_cmp_swap, h]
    simp [Ordering.swap]
  · exact Or.inl h

theorem rowLe_trans {a b c : Row} (hab : Matrix.rowLe a b) (hbc : Matrix.rowLe b c) :
    Matrix.rowLe a c := by
  unfold Matrix.rowLe at *
  rw [ne_eq, row_cmp_gt_iff] at *
  exact gt_witness_trans hab hbc

/-! ### Comparator versus leader columns -/

theorem rowLe_of_target_all_zero {a b : Row} (hb : RowVec.leader_col b = none) :
    Matrix.rowLe a b := by
  unfold Matrix.rowLe
  rw [ne_eq, row_cmp_gt_iff]
  rintro ⟨k, _, hbk, _⟩
  exact hbk (leader_col_none_getD hb k)

theorem row_cmp_lt_of_leader {a b : Row} {ca : ℕ} (ha : RowVec.leader_col a = some ca)
    (hb : RowVec.leader_col b = none ∨ ∃ cb, RowVec.leader_col b = some cb ∧ ca < cb) :
    Matrix.row_cmp a b = .lt := by
  have hgt : Matrix.row_cmp b a = .gt := by
    rw [row_cmp_gt_iff]
    refine ⟨ca, ?_, leader_col_ne_zero ha, fun i hi => ?_⟩
    · rcases hb with hb | ⟨cb, hb, hcb⟩
      · exact leader_col_none_getD hb ca
      · exact leader_col_zero_before hb hcb
    · have hai : a.getD i 0 = 0 := leader_col_zero_before ha hi
      have hbi : b.getD i 0 = 0 := by
        rcases hb with hb | ⟨cb, hb, hcb⟩
        · exact leader_col_none_getD hb i
        · exact leader_col_zero_before hb (by omega)
      exact iff_of_true hbi hai
  have hs := row_cmp_swap b a
  rw [hgt] at hs
  simpa [Ordering.swap] using hs

theorem leader_mono_of_rowLe {a b : Row} (h : Matrix.rowLe a b) :
    (RowVec.leader_col a = none → RowVec.leader_col b = none) ∧
    (∀ ca cb, RowVec.leader_col a = some ca → RowVec.leader_col b = some cb → ca ≤ cb) := by
  constructor
  · intro ha
    cases hb : RowVec.leader_col b with
    | none => rfl
    | some cb =>
      exact absurd (row_cmp_gt_of_lt (row_cmp_lt_of_leader hb (Or.inl ha))) h
  · intro ca cb hca hcb
    by_contra hlt
    push_neg at hlt
    exact absurd (row_cmp_gt_of_lt (row_cmp_lt_of_leader hcb (Or.inr ⟨ca, hca, hlt⟩))) h

/-! ### Rectangularity helpers -/

theorem rowD_mem {m : Mat} {j : ℕ} (hj : j < m.length) : Matrix.rowD m j ∈ m := by
  rw [Matrix.rowD, getD_eq_getElem _ _ _ hj]
  exact List.getElem_mem hj

theorem rect_rowD_length {m : Mat} {W : ℕ} (h : Rect m W) {j : ℕ} (hj : j < m.length) :
    (Matrix.rowD m j).length = W := h _ (rowD_mem hj)

theorem rect_getD_length {m : Mat} {W : ℕ} (h : Rect m W) {j : ℕ} (hj : j < m.length) :
    (m.getD j []).length = W := by
  have h2 := rect_rowD_length h hj
  simpa [Matrix.rowD] using h2

/-! ### Entry-level behaviour of `eliminate` and the elimination loops -/

theorem eliminate_cases {m : Mat} {W : ℕ} (sel oth lc : ℕ) (hrect : Rect m W)
    (hsel : sel < m.length) (hoth : oth < m.length)
    (hpiv : (m.getD sel []).getD lc 0 ≠ 0) :
    ∃ m2, Matrix.eliminate m sel oth lc = some m2 ∧
      m2.length = m.length ∧ Rect m2 W ∧
      (∀ j, j ≠ oth → m2.getD j [] = m.getD j []) ∧
      (m2.getD oth []).getD lc 0 = 0 ∧
      (∀ c, (m.getD sel []).getD c 0 = 0 →
        (m2.getD oth []).getD c 0 = (m.getD oth []).getD c 0) := by
  by_cases h0 : (m.getD oth []).getD lc 0 = 0
  · refine ⟨m, ?_, rfl, hrect, fun _ _ => rfl, h0, fun _ _ => rfl⟩
    simp only [Matrix.eliminate, Matrix.rowD]
    rw [if_pos h0]
  · have hol : (m.getD oth []).length = W := rect_getD_length hrect hoth
    have hsl : (m.getD sel []).length = W := rect_getD_length hrect hsel
    refine ⟨m.set oth (List.zipWith (· + ·) (m.getD oth [])
        (RowVec.mul_assign (m.getD sel [])
          (-(m.getD oth []).getD lc 0 / (m.getD sel []).getD lc 0))),
      ?_, by simp, ?_, ?_, ?_, ?_⟩
    · simp only [Matrix.eliminate, Matrix.rowD]
      rw [if_neg h0, if_neg hpiv, if_neg (by rw [hsl, hol]; simp)]
    · intro r hr
      rcases List.mem_or_eq_of_mem_set hr with hr | rfl
      · exact hrect r hr
      · rw [List.length_zipWith, mul_assign_length, hol, hsl]
        simp
    · intro j hj
      exact getD_set_ne _ _ _ (fun h => hj h.symm)
    · rw [getD_set_eq _ _ _ _ hoth,
        zipWith_add_getD _ _ (by rw [hol, mul_assign_length, hsl]) lc, mul_assign_getD]
      generalize hb : (m.getD sel []).getD lc 0 = b at hpiv ⊢
      generalize (m.getD oth []).getD lc 0 = a
      field_simp
      ring
    · intro c hc
      rw [getD_set_eq _ _ _ _ hoth,
        zipWith_add_getD _ _ (by rw [hol, mul_assign_length, hsl]) c, mul_assign_getD, hc]
      ring

theorem eliminate_loop_spec {W row lc : ℕ} :
    ∀ (is : List ℕ) (m : Mat), Rect m W → row < m.length →
      (∀ i ∈ is, i < m.length ∧ i ≠ row) → is.Nodup →
      (m.getD row []).getD lc 0 ≠ 0 →
      ∃ m2, is.foldlM (fun acc i => Matrix.eliminate acc row i lc) m = some m2 ∧
        m2.length = m.length ∧ Rect m2 W ∧
        (∀ j, j ∉ is → m2.getD j [] = m.getD j []) ∧
        (∀ i ∈ is, (m2.getD i []).getD lc 0 = 0) ∧
        (∀ c, (m.getD row []).getD c 0 = 0 →
          ∀ j, (m2.getD j []).getD c 0 = (m.getD j []).getD c 0)
  | [], m, hrect, _hrow, _hmem, _hnd, _hpiv =>
    ⟨m, by simp, rfl, hrect, fun _ _ => rfl, by simp, fun _ _ _ => rfl⟩
  | i :: is, m, hrect, hrow, hmem, hnd, hpiv => by
    obtain ⟨hi_lt, hi_ne⟩ := hmem i (by simp)
    obtain ⟨m1, he1, hlen1, hrect1, hframe1, hzero1, hcol1⟩ :=
      eliminate_cases row i lc hrect hrow hi_lt hpiv
    have hrow_pres : m1.getD row [] = m.getD row [] := hframe1 row (Ne.symm hi_ne)
    obtain ⟨m2, he2, hlen2, hrect2, hframe2, hzero2, hcol2⟩ :=
      eliminate_loop_spec is m1 hrect1 (by rw [hlen1]; exact hrow)
        (fun j hj => ⟨by rw [hlen1]; exact (hmem j (by simp [hj])).1, (hmem j (by simp [hj])).2⟩)
        (List.nodup_cons.mp hnd).2
        (by rw [hrow_pres]; exact hpiv)
    refine ⟨m2, ?_, hlen2.trans hlen1, hrect2, ?_, ?_, ?_⟩
    · rw [List.foldlM_cons, he1]
      simpa using he2
    · intro j hj
      have hj1 : j ∉ is := fun h => hj (by simp [h])
      have hjne : j ≠ i := fun h => hj (by simp [h])
      rw [hframe2 j hj1, hframe1 j hjne]
    · intro i2 hi2
      rcases List.mem_cons.mp hi2 with rfl | hi2
      · rw [hframe2 i2 (List.nodup_cons.mp hnd).1]
        exact hzero1
      · exact hzero2 i2 hi2
    · intro c hc j
      have hc1 : (m1.getD row []).getD c 0 = 0 := by rw [hrow_pres]; exact hc
      rw [hcol2 c hc1 j]
      by_cases hji : j = i
      · subst hji
        exact hcol1 c hc
      · rw [hframe1 j hji]

theorem row_lt_of_leader_some {m : Mat} {row lc : ℕ}
    (h : RowVec.leader_col (m.getD row []) = some lc) : row < m.length := by
  by_contra hge
  push_neg at hge
  rw [List.getD_eq_default _ _ hge] at h
  simp [RowVec.leader_col] at h

theorem eliminate_below_leader_spec (m : Mat) (W row : ℕ) (hrect : Rect m W) :
    ∃ m2, Matrix.eliminate_below_leader m row = some m2 ∧
      m2.length = m.length ∧ Rect m2 W ∧
      (∀ j, j ≤ row → m2.getD j [] = m.getD j []) ∧
      (∀ j, m.length ≤ j → m2.getD j [] = m.getD j []) ∧
      (∀ c, (m.getD row []).getD c 0 = 0 →
        ∀ j, (m2.getD j []).getD c 0 = (m.getD j []).getD c 0) ∧
      (∀ lc, RowVec.leader_col (m.getD row []) = some lc →
        ∀ j, row < j → (m2.getD j []).getD lc 0 = 0) ∧
      (RowVec.leader_col (m.getD row []) = none → m2 = m) := by
  cases hl : RowVec.leader_col (m.getD row []) with
  | none =>
    refine ⟨m, ?_, rfl, hrect, fun _ _ => rfl, fun _ _ => rfl, fun _ _ _ => rfl, ?_, fun _ => rfl⟩
    · simp only [Matrix.eliminate_below_leader, Matrix.rowD, hl]
    · intro lc hlc
      simp at hlc
  | some lc =>
    have hrow : row < m.length := row_lt_of_leader_some hl
    have hmem : ∀ i ∈ List.range' (row + 1) (m.length - (row + 1)),
        i < m.length ∧ i ≠ row := by
      intro i hi
      rw [List.mem_range'] at hi
      obtain ⟨k, hk, rfl⟩ := hi
      constructor <;> omega
    obtain ⟨m2, he, hlen, hrect2, hframe, hzero, hcol⟩ :=
      eliminate_loop_spec (List.range' (row + 1) (m.length - (row + 1))) m hrect hrow hmem
        (List.nodup_range' _ _) (leader_col_ne_zero hl)
    have hnotmem : ∀ j, (j ≤ row ∨ m.length ≤ j) →
        j ∉ List.range' (row + 1) (m.length - (row + 1)) := by
      intro j hj hmem2
      rw [List.mem_range'] at hmem2
      obtain ⟨k, hk, rfl⟩ := hmem2
      omega
    refine ⟨m2, ?_, hlen, hrect2,
      fun j hj => hframe j (hnotmem j (Or.inl hj)),
      fun j hj => hframe j (hnotmem j (Or.inr hj)), hcol, ?_, ?_⟩
    · simp only [Matrix.eliminate_below_leader, Matrix.rowD, hl]
      exact he
    · intro lc2 hlc2 j hjgt
      obtain rfl : lc = lc2 := by simpa using hlc2
      rcases Nat.lt_or_ge j m.length with hjlen | hjlen
      · refine hzero j ?_
        rw [List.mem_range']
        exact ⟨j - (row + 1), by omega, by omega⟩
      · rw [hframe j (hnotmem j (Or.inr hjlen)), List.getD_eq_default _ _ hjlen]
        simp
    · intro hnone
      simp at hnone

theorem eliminate_above_leader_spec (m : Mat) (W row : ℕ) (hrect : Rect m W) :
    ∃ m2, Matrix.eliminate_above_leader m row = some m2 ∧
      m2.length = m.length ∧ Rect m2 W ∧
      (∀ j, row ≤ j → m2.getD j [] = m.getD j []) ∧
      (∀ c, (m.getD row []).getD c 0 = 0 →
        ∀ j, (m2.getD j []).getD c 0 = (m.getD j []).getD c 0) ∧
      (∀ lc, RowVec.leader_col (m.getD row []) = some lc →
        ∀ j, j < row → (m2.getD j []).getD lc 0 = 0) ∧
      (RowVec.leader_col (m.getD row []) = none → m2 = m) := by
  cases hl : RowVec.leader_col (m.getD row []) with
  | none =>
    refine ⟨m, ?_, rfl, hrect, fun _ _ => rfl, fun _ _ _ => rfl, ?_, fun _ => rfl⟩
    · simp only [Matrix.eliminate_above_leader, Matrix.rowD, hl]
    · intro lc hlc
      simp at hlc
  | some lc =>
    have hrow : row < m.length := row_lt_of_leader_some hl
    have hmem : ∀ i ∈ List.range row, i < m.length ∧ i ≠ row := by
      intro i hi
      rw [List.mem_range] at hi
      constructor <;> omega
    obtain ⟨m2, he, hlen, hrect2, hframe, hzero, hcol⟩ :=
      eliminate_loop_spec (List.range row) m hrect hrow hmem
        (List.nodup_range row) (leader_col_ne_zero hl)
    refine ⟨m2, ?_, hlen, hrect2,
      fun j hj => hframe j (by rw [List.mem_range]; omega), hcol, ?_, ?_⟩
    · simp only [Matrix.eliminate_above_leader, Matrix.rowD, hl]
      exact he
    · intro lc2 hlc2 j hjlt
      obtain rfl : lc = lc2 := by simpa using hlc2
      exact hzero j (by rw [List.mem_range]; omega)
    · intro hnone
      simp at hnone

/-! ### `leader_sort` as a permutation and a sorted list -/

theorem leader_sort_perm (m : Mat) : List.Perm (Matrix.leader_sort m) m :=
  List.perm_insertionSort _ m

theorem leader_sort_length (m : Mat) : (Matrix.leader_sort m).length = m.length :=
  (leader_sort_perm m).length_eq

theorem leader_sort_rect {m : Mat} {W : ℕ} (h : Rect m W) : Rect (Matrix.leader_sort m) W :=
  fun r hr => h r ((leader_sort_perm m).mem_iff.mp hr)

theorem leader_sort_sorted (m : Mat) : List.Sorted Matrix.rowLe (Matrix.leader_sort m) := by
  haveI : IsTotal Row Matrix.rowLe := ⟨rowLe_total⟩
  haveI : IsTrans Row Matrix.rowLe := ⟨fun _ _ _ => rowLe_trans⟩
  exact List.sorted_insertionSort _ m

theorem leader_sort_of_sorted {m : Mat} (h : List.Sorted Matrix.rowLe m) :
    Matrix.leader_sort m = m :=
  List.Sorted.insertionSort_eq h

/-! ### The elimination sweeps and the echelon invariants -/

theorem below_sweep_spec {W : ℕ} :
    ∀ (n k : ℕ) (m : Mat), Rect m W → BelowInv m k →
      ∃ m2, (List.range' k n).foldlM (fun acc row => Matrix.eliminate_below_leader acc row) m
          = some m2 ∧
        m2.length = m.length ∧ Rect m2 W ∧ BelowInv m2 (k + n)
  | 0, k, m, hrect, hinv => ⟨m, by simp, rfl, hrect, by simpa using hinv⟩
  | n + 1, k, m, hrect, hinv => by
    obtain ⟨m1, he1, hlen1, hrect1, hle1, _hgelen1, hcol1, hzero1, _⟩ :=
      eliminate_below_leader_spec m W k hrect
    have hrowk : m1.getD k [] = m.getD k [] := hle1 k le_rfl
    have hinv1 : BelowInv m1 (k + 1) := by
      intro i hik c hc j hij
      rcases Nat.lt_or_ge i k with hi | hi
      · have hrowi : m1.getD i [] = m.getD i [] := hle1 i (by omega)
        rw [hrowi] at hc
        have hmk : (m.getD k []).getD c 0 = 0 := hinv i hi c hc k hi
        rcases Nat.lt_or_ge k j with hj | hj
        · rw [hcol1 c hmk j]
          exact hinv i hi c hc j hij
        · rw [hle1 j hj]
          exact hinv i hi c hc j hij
      · have hik2 : i = k := by omega
        subst hik2
        rw [hrowk] at hc
        exact hzero1 c hc j hij
    obtain ⟨m2, he2, hlen2, hrect2, hinv2⟩ := below_sweep_spec n (k + 1) m1 hrect1 hinv1
    refine ⟨m2, ?_, hlen2.trans hlen1, hrect2, ?_⟩
    · rw [List.range'_succ, List.foldlM_cons, he1]
      simpa using he2
    · have heq : k + 1 + n = k + (n + 1) := by omega
      exact heq ▸ hinv2

/-- Sortedness by the comparator together with pairwise-distinct leaders
forces the strict echelon shape. -/
theorem sorted_distinct_strict_echelon {m : Mat} (hsort : List.Sorted Matrix.rowLe m)
    (hpair : List.Pairwise
      (fun a b => ∀ c, RowVec.leader_col a = some c → RowVec.leader_col b ≠ some c) m) :
    StrictEchelon m := by
  constructor
  · intro i j ci cj hij hci hcj
    have hjlen : j < m.length := row_lt_of_leader_some hcj
    have hilen : i < m.length := by omega
    have hle : Matrix.rowLe (m.getD i []) (m.getD j []) := by
      rw [getD_eq_getElem m i [] hilen, getD_eq_getElem m j [] hjlen]
      exact List.pairwise_iff_getElem.mp hsort i j hilen hjlen hij
    have hne := List.pairwise_iff_getElem.mp hpair i j hilen hjlen hij
    have hmono := (leader_mono_of_rowLe hle).2 ci cj hci hcj
    have hcine : cj ≠ ci := by
      intro h
      subst h
      rw [getD_eq_getElem m i [] hilen] at hci
      rw [getD_eq_getElem m j [] hjlen] at hcj
      exact hne cj hci hcj
    omega
  · intro i j hij hjlen hni
    have hilen : i < m.length := by omega
    have hle : Matrix.rowLe (m.getD i []) (m.getD j []) := by
      rw [getD_eq_getElem m i [] hilen, getD_eq_getElem m j [] hjlen]
      exact List.pairwise_iff_getElem.mp hsort i j hilen hjlen hij
    exact (leader_mono_of_rowLe hle).1 hni

theorem ref_spec (m : Mat) (W : ℕ) (hrect : Rect m W) :
    ∃ m2, Matrix.ref m = some m2 ∧ m2.length = m.length ∧ Rect m2 W ∧ StrictEchelon m2 := by
  have hrect1 : Rect (Matrix.leader_sort m) W := leader_sort_rect hrect
  obtain ⟨ms, hes, hlens, hrects, hinvs⟩ :=
    below_sweep_spec (Matrix.leader_sort m).length 0 (Matrix.leader_sort m) hrect1
      (fun i hi => absurd hi (by omega))
  have hinvs2 : BelowInv ms (Matrix.leader_sort m).length := by simpa using hinvs
  refine ⟨Matrix.leader_sort ms, ?_, ?_, leader_sort_rect hrects, ?_⟩
  · simp only [Matrix.ref]
    rw [List.range_eq_range' (Matrix.leader_sort m).length, hes]
    simp
  · rw [leader_sort_length, hlens, leader_sort_length]
  · apply sorted_distinct_strict_echelon (leader_sort_sorted ms)
    have hpair_ms : List.Pairwise
        (fun a b => ∀ c, RowVec.leader_col a = some c → RowVec.leader_col b ≠ some c) ms := by
      rw [List.pairwise_iff_getElem]
      intro i j hi hj hij c hci hcj
      have h1 : RowVec.leader_col (ms.getD i []) = some c := by
        rw [getD_eq_getElem ms i [] hi]; exact hci
      have h2 : (ms.getD j []).getD c 0 = 0 :=
        hinvs2 i (by rw [hlens] at hi; exact hi) c h1 j hij
      have h3 : RowVec.leader_col (ms.getD j []) = some c := by
        rw [getD_eq_getElem ms j [] hj]; exact hcj
      exact leader_col_ne_zero h3 h2
    have hsymm : ∀ {x y : Row},
        (∀ c, RowVec.leader_col x = some c → RowVec.leader_col y ≠ some c) →
        (∀ c, RowVec.leader_col y = some c → RowVec.leader_col x ≠ some c) := by
      intro x y hxy c hyc hxc
      exact hxy c hxc hyc
    exact (List.Perm.pairwise_iff hsymm (leader_sort_perm ms)).mpr hpair_ms

theorem above_sweep_spec {W : ℕ} :
    ∀ (n k : ℕ) (m : Mat), Rect m W → StrictEchelon m → AboveInv m k →
      ∃ m2, (List.range' k n).foldlM (fun acc row => Matrix.eliminate_above_leader acc row) m
          = some m2 ∧
        m2.length = m.length ∧ Rect m2 W ∧
        (∀ i, RowVec.leader_col (m2.getD i []) = RowVec.leader_col (m.getD i [])) ∧
        AboveInv m2 (k + n)
  | 0, k, m, hrect, _hech, hinv => ⟨m, by simp, rfl, hrect, fun _ => rfl, by simpa using hinv⟩
  | n + 1, k, m, hrect, hech, hinv => by
    obtain ⟨m1, he1, hlen1, hrect1, hge1, hcol1, hzero1, hid1⟩ :=
      eliminate_above_leader_spec m W k hrect
    cases hlk : RowVec.leader_col (m.getD k []) with
    | none =>
      have hm1 : m1 = m := hid1 hlk
      subst hm1
      have hinv1 : AboveInv m1 (k + 1) := by
        intro r hr c hc j hj
        rcases Nat.lt_or_ge r k with h | h
        · exact hinv r h c hc j hj
        · have hrk : r = k := by omega
          subst hrk
          rw [hlk] at hc
          simp at hc
      obtain ⟨m2, he2, hlen2, hrect2, hlead2, hinv2⟩ :=
        above_sweep_spec n (k + 1) m1 hrect1 hech hinv1
      refine ⟨m2, ?_, hlen2, hrect2, hlead2, ?_⟩
      · rw [List.range'_succ, List.foldlM_cons, he1]
        simpa using he2
      · have heq : k + 1 + n = k + (n + 1) := by omega
        exact heq ▸ hinv2
    | some lck =>
      have hklen : k < m.length := row_lt_of_leader_some hlk
      have hlead1 : ∀ i, RowVec.leader_col (m1.getD i []) = RowVec.leader_col (m.getD i []) := by
        intro i
        rcases Nat.lt_or_ge i k with hik | hik
        · cases hli : RowVec.leader_col (m.getD i []) with
          | none =>
            have h2 := hech.2 i k hik hklen hli
            rw [hlk] at h2
            simp at h2
          | some ci =>
            have hci : ci < lck := hech.1 i k ci lck hik hli hlk
            have hcolpres : ∀ c, c < lck →
                (m1.getD i []).getD c 0 = (m.getD i []).getD c 0 := by
              intro c hc
              exact hcol1 c (leader_col_zero_before hlk hc) i
            apply leader_col_eq_some
            · rw [rect_getD_length hrect1 (by rw [hlen1]; omega)]
              have hlt := leader_col_lt hli
              rw [rect_getD_length hrect (by omega)] at hlt
              exact hlt
            · rw [hcolpres ci hci]
              exact leader_col_ne_zero hli
            · intro i2 hi2
              rw [hcolpres i2 (by omega)]
              exact leader_col_zero_before hli hi2
        · rw [hge1 i hik]
      have hech1 : StrictEchelon m1 := by
        constructor
        · intro i j ci cj hij hci hcj
          rw [hlead1 i] at hci
          rw [hlead1 j] at hcj
          exact hech.1 i j ci cj hij hci hcj
        · intro i j hij hjlen hni
          rw [hlead1 i] at hni
          rw [hlead1 j]
          exact hech.2 i j hij (by rw [hlen1] at hjlen; exact hjlen) hni
      have hinv1 : AboveInv m1 (k + 1) := by
        intro r hr c hc j hj
        rcases Nat.lt_or_ge r k with h | h
        · rw [hlead1 r] at hc
          have hclt : c < lck := hech.1 r k c lck h hc hlk
          rw [hcol1 c (leader_col_zero_before hlk hclt) j]
          exact hinv r h c hc j hj
        · have hrk : r = k := by omega
          subst hrk
          rw [hlead1 r, hlk] at hc
          obtain rfl : lck = c := by simpa using hc
          exact hzero1 lck hlk j hj
      obtain ⟨m2, he2, hlen2, hrect2, hlead2, hinv2⟩ :=
        above_sweep_spec n (k + 1) m1 hrect1 hech1 hinv1
      refine ⟨m2, ?_, hlen2.trans hlen1, hrect2,
        fun i => (hlead2 i).trans (hlead1 i), ?_⟩
      · rw [List.range'_succ, List.foldlM_cons, he1]
        simpa using he2
      · have heq : k + 1 + n = k + (n + 1) := by omega
        exact heq ▸ hinv2

/-! ### `normalize` preserves shape, zeros and leaders -/

theorem normalize_length (r : Row) : (RowVec.normalize r).length = r.length := by
  rw [RowVec.normalize]
  cases RowVec.leader_col r with
  | none => rfl
  | some lc =>
    dsimp only
    split
    · rw [mul_assign_length]
    · rfl

theorem normalize_zero_pres {r : Row} {c : ℕ} (h : r.getD c 0 = 0) :
    (RowVec.normalize r).getD c 0 = 0 := by
  rw [RowVec.normalize]
  cases RowVec.leader_col r with
  | none => exact h
  | some lc =>
    dsimp only
    split
    · rw [mul_assign_getD, h, zero_mul]
    · exact h

theorem normalize_leader_one {r : Row} {lc : ℕ} (h : RowVec.leader_col r = some lc) :
    (RowVec.normalize r).getD lc 0 = 1 := by
  rw [RowVec.normalize, h]
  dsimp only
  split
  · rw [mul_assign_getD]
    exact mul_inv_cancel₀ (leader_col_ne_zero h)
  · rename_i h1
    push_neg at h1
    exact h1

theorem normalize_leader_col (r : Row) :
    RowVec.leader_col (RowVec.normalize r) = RowVec.leader_col r := by
  cases h : RowVec.leader_col r with
  | none =>
    rw [RowVec.normalize, h]
    exact h
  | some lc =>
    rw [RowVec.normalize, h]
    dsimp only
    split
    · apply leader_col_eq_some
      · rw [mul_assign_length]
        exact leader_col_lt h
      · rw [mul_assign_getD]
        exact mul_ne_zero (leader_col_ne_zero h)
          (inv_ne_zero (leader_col_ne_zero h))
      · intro i hi
        rw [mul_assign_getD, leader_col_zero_before h hi, zero_mul]
    · exact h

theorem normalize_mat_length (m : Mat) : (Matrix.normalize m).length = m.length := by
  simp [Matrix.normalize]

theorem normalize_mat_rowD (m : Mat) (j : ℕ) :
    (Matrix.normalize m).getD j [] = RowVec.normalize (m.getD j []) := by
  rcases Nat.lt_or_ge j m.length with hj | hj
  · rw [getD_eq_getElem _ j [] (by rw [normalize_mat_length]; exact hj),
      getD_eq_getElem _ j [] hj]
    simp [Matrix.normalize]
  · rw [List.getD_eq_default _ _ (by rw [normalize_mat_length]; exact hj),
      List.getD_eq_default _ _ hj]
    rfl

theorem normalize_mat_rect {m : Mat} {W : ℕ} (h : Rect m W) :
    Rect (Matrix.normalize m) W := by
  intro r hr
  simp only [Matrix.normalize, List.mem_map] at hr
  obtain ⟨r0, hr0, rfl⟩ := hr
  rw [normalize_length]
  exact h r0 hr0

/-! ### Reduced row echelon shape -/

theorem echelon_sorted {m : Mat} (hech : StrictEchelon m) : List.Sorted Matrix.rowLe m := by
  apply List.pairwise_iff_getElem.mpr
  intro i j hi hj hij
  rw [← getD_eq_getElem m i [] hi, ← getD_eq_getElem m j [] hj]
  cases hlj : RowVec.leader_col (m.getD j []) with
  | none => exact rowLe_of_target_all_zero hlj
  | some cj =>
    cases hli : RowVec.leader_col (m.getD i []) with
    | none =>
      have h2 := hech.2 i j hij hj hli
      rw [hlj] at h2
      simp at h2
    | some ci =>
      have hci : ci < cj := hech.1 i j ci cj hij hli hlj
      have hlt := row_cmp_lt_of_leader hli (Or.inr ⟨cj, hlj, hci⟩)
      show Matrix.row_cmp (m.getD i []) (m.getD j []) ≠ Ordering.gt
      rw [hlt]
      simp

theorem rref_spec (m : Mat) (W : ℕ) (hrect : Rect m W) :
    ∃ m2, Matrix.rref m = some m2 ∧ m2.length = m.length ∧ Rect m2 W ∧ RREFForm m2 := by
  obtain ⟨m1, he1, hlen1, hrect1, hech1⟩ := ref_spec m W hrect
  obtain ⟨m2, he2, hlen2, hrect2, hlead2, hinv2⟩ :=
    above_sweep_spec m1.length 0 m1 hrect1 hech1 (fun r hr => absurd hr (by omega))
  have hinv2b : AboveInv m2 m1.length := by simpa using hinv2
  have hech2 : StrictEchelon m2 := by
    constructor
    · intro i j ci cj hij hci hcj
      rw [hlead2 i] at hci
      rw [hlead2 j] at hcj
      exact hech1.1 i j ci cj hij hci hcj
    · intro i j hij hjlen hni
      rw [hlead2 i] at hni
      rw [hlead2 j]
      exact hech1.2 i j hij (by rw [hlen2] at hjlen; exact hjlen) hni
  have hsort2 : Matrix.leader_sort m2 = m2 := leader_sort_of_sorted (echelon_sorted hech2)
  refine ⟨Matrix.normalize m2, ?_, ?_, normalize_mat_rect hrect2, ?_⟩
  · simp only [Matrix.rref]
    rw [he1]
    simp only [Option.bind_eq_bind, Option.some_bind]
    rw [List.range_eq_range' m1.length, he2]
    simp only [Option.some_bind]
    rw [hsort2]
    rfl
  · rw [normalize_mat_length, hlen2, hlen1]
  · have hleadN : ∀ j, RowVec.leader_col ((Matrix.normalize m2).getD j []) =
        RowVec.leader_col (m2.getD j []) := fun j => by
      rw [normalize_mat_rowD]
      exact normalize_leader_col _
    refine ⟨⟨?_, ?_⟩, ?_, ?_⟩
    · intro i j ci cj hij hci hcj
      rw [hleadN i] at hci
      rw [hleadN j] at hcj
      exact hech2.1 i j ci cj hij hci hcj
    · intro i j hij hjlen hni
      rw [hleadN i] at hni
      rw [hleadN j]
      exact hech2.2 i j hij (by rw [normalize_mat_length] at hjlen; exact hjlen) hni
    · intro i c hc
      rw [hleadN i] at hc
      rw [normalize_mat_rowD]
      exact normalize_leader_one hc
    · intro i c hc j hji
      rw [hleadN i] at hc
      rw [normalize_mat_rowD]
      apply normalize_zero_pres
      rcases Nat.lt_or_ge j i with h | h
      · exact hinv2b i (by rw [← hlen2]; exact row_lt_of_leader_some hc) c hc j h
      · have hij : i < j := by omega
        cases hlj : RowVec.leader_col (m2.getD j []) with
        | none => exact leader_col_none_getD hlj c
        | some cj =>
          have hcj := hech2.1 i j c cj hij hc hlj
          exact leader_col_zero_before hlj hcj

/-! ### `rref` of an RREF-shaped matrix is the identity -/

theorem eliminate_noop {m : Mat} {sel oth lc : ℕ} (h : (m.getD oth []).getD lc 0 = 0) :
    Matrix.eliminate m sel oth lc = some m := by
  simp only [Matrix.eliminate, Matrix.rowD]
  rw [if_pos h]

theorem eliminate_loop_noop {row lc : ℕ} :
    ∀ (is : List ℕ) (m : Mat), (∀ i ∈ is, (m.getD i []).getD lc 0 = 0) →
      is.foldlM (fun acc i => Matrix.eliminate acc row i lc) m = some m
  | [], m, _ => by simp
  | i :: is, m, h => by
    rw [List.foldlM_cons, eliminate_noop (h i (by simp))]
    simpa using eliminate_loop_noop is m (fun j hj => h j (by simp [hj]))

theorem echelon_zero_below {m : Mat} (hech : StrictEchelon m) {row lc : ℕ}
    (hl : RowVec.leader_col (m.getD row []) = some lc) {j : ℕ} (hj : row < j) :
    (m.getD j []).getD lc 0 = 0 := by
  cases hlj : RowVec.leader_col (m.getD j []) with
  | none => exact leader_col_none_getD hlj lc
  | some cj => exact leader_col_zero_before hlj (hech.1 row j lc cj hj hl hlj)

theorem eliminate_below_noop {m : Mat} (hech : StrictEchelon m) (row : ℕ) :
    Matrix.eliminate_below_leader m row = some m := by
  cases hl : RowVec.leader_col (m.getD row []) with
  | none => simp only [Matrix.eliminate_below_leader, Matrix.rowD, hl]
  | some lc =>
    simp only [Matrix.eliminate_below_leader, Matrix.rowD, hl]
    apply eliminate_loop_noop
    intro i hi
    rw [List.mem_range'] at hi
    obtain ⟨k, _hk, rfl⟩ := hi
    exact echelon_zero_below hech hl (by omega)

theorem below_fold_noop {m : Mat} (hech : StrictEchelon m) :
    ∀ rs : List ℕ,
      rs.foldlM (fun acc row => Matrix.eliminate_below_leader acc row) m = some m
  | [] => by simp
  | r :: rs => by
    rw [List.foldlM_cons, eliminate_below_noop hech r]
    simpa using below_fold_noop hech rs

theorem eliminate_above_noop {m : Mat} (hrref : RREFForm m) (row : ℕ) :
    Matrix.eliminate_above_leader m row = some m := by
  cases hl : RowVec.leader_col (m.getD row []) with
  | none => simp only [Matrix.eliminate_above_leader, Matrix.rowD, hl]
  | some lc =>
    simp only [Matrix.eliminate_above_leader, Matrix.rowD, hl]
    apply eliminate_loop_noop
    intro i hi
    rw [List.mem_range] at hi
    exact hrref.2.2 row lc hl i (by omega)

theorem above_fold_noop {m : Mat} (hrref : RREFForm m) :
    ∀ rs : List ℕ,
      rs.foldlM (fun acc row => Matrix.eliminate_above_leader acc row) m = some m
  | [] => by simp
  | r :: rs => by
    rw [List.foldlM_cons, eliminate_above_noop hrref r]
    simpa using above_fold_noop hrref rs

theorem normalize_row_noop {r : Row}
    (h : ∀ c, RowVec.leader_col r = some c → r.getD c 0 = 1) :
    RowVec.normalize r = r := by
  rw [RowVec.normalize]
  cases hl : RowVec.leader_col r with
  | none => rfl
  | some c =>
    dsimp only
    rw [if_neg (fun hne => hne (h c hl))]

theorem normalize_mat_noop {m : Mat}
    (h : ∀ i c, RowVec.leader_col (m.getD i []) = some c → (m.getD i []).getD c 0 = 1) :
    Matrix.normalize m = m := by
  apply List.ext_getElem
  · rw [normalize_mat_length]
  · intro i h1 h2
    have hmap : (Matrix.normalize m)[i] = RowVec.normalize m[i] := by
      simp [Matrix.normalize]
    rw [hmap]
    apply normalize_row_noop
    intro c hc
    have hgd : m.getD i [] = m[i] := getD_eq_getElem m i [] h2
    rw [← hgd] at hc ⊢
    exact h i c hc

theorem rref_of_rrefform {R : Mat} (hrref : RREFForm R) : Matrix.rref R = some R := by
  have hsort : Matrix.leader_sort R = R := leader_sort_of_sorted (echelon_sorted hrref.1)
  have href : Matrix.ref R = some R := by
    simp only [Matrix.ref]
    rw [hsort, List.range_eq_range' R.length, below_fold_noop hrref.1 _]
    simp only [Option.bind_eq_bind, Option.some_bind]
    rw [hsort]
    rfl
  simp only [Matrix.rref]
  rw [href]
  simp only [Option.bind_eq_bind, Option.some_bind]
  rw [List.range_eq_range' R.length, above_fold_noop hrref _]
  simp only [Option.some_bind]
  rw [hsort, normalize_mat_noop hrref.2.1]
  rfl

/-! ### Claim C1: idempotence of `rref` -/

/-- C1: `rref` is idempotent: for every rectangular matrix, applying `rref`
to the result of `rref` yields the same matrix, entry for entry. -/
theorem rref_idempotent (m : Mat) (W : ℕ) (hrect : Rect m W) :
    ∀ r, Matrix.rref m = some r → Matrix.rref r = some r := by
  intro r hr
  obtain ⟨r2, he, _, _, hrref⟩ := rref_spec m W hrect
  rw [hr] at he
  obtain rfl : r = r2 := by simpa using he
  exact rref_of_rrefform hrref

/-- Witness for C1 at `[[1,2,3],[4,5,6],[7,8,9]]`. -/
theorem rref_idempotent_witness :
    Rect [[1,2,3],[4,5,6],[7,8,9]] 3 ∧
    Matrix.rref [[1,2,3],[4,5,6],[7,8,9]] = some [[1,0,-1],[0,1,2],[0,0,0]] ∧
    Matrix.rref [[1,0,-1],[0,1,2],[0,0,0]] = some [[1,0,-1],[0,1,2],[0,0,0]] := by
  have hrect : Rect [[1,2,3],[4,5,6],[7,8,9]] 3 := by
    intro r hr
    simp only [List.mem_cons, List.not_mem_nil, or_false] at hr
    rcases hr with rfl | rfl | rfl <;> rfl
  have h1 : Matrix.rref [[1,2,3],[4,5,6],[7,8,9]] = some [[1,0,-1],[0,1,2],[0,0,0]] := by
    with_unfolding_all rfl
  exact ⟨hrect, h1, rref_idempotent [[1,2,3],[4,5,6],[7,8,9]] 3 hrect _ h1⟩

/-! ### Claim C7: zero-pivot unreachability -/

/-- C7: calling `eliminate` with a zero pivot while the target entry is
nonzero terminates fatally (modelled as `none`) rather than returning a
recoverable error, and the `ref`/`rref` drivers never hit that case on any
rectangular matrix: they always complete. -/
theorem zero_pivot_safety :
    (∀ (m : Mat) (sel oth lc : ℕ), Matrix.entry m oth lc ≠ 0 →
      Matrix.entry m sel lc = 0 → Matrix.eliminate m sel oth lc = none) ∧
    (∀ (m : Mat) (W : ℕ), Rect m W → (Matrix.ref m).isSome ∧ (Matrix.rref m).isSome) := by
  constructor
  · intro m sel oth lc hne hz
    simp only [Matrix.entry, Matrix.rowD] at hne hz
    simp only [Matrix.eliminate, Matrix.rowD]
    rw [if_neg hne, if_pos hz]
  · intro m W hrect
    obtain ⟨m1, he1, _, _, _⟩ := ref_spec m W hrect
    obtain ⟨m2, he2, _, _, _⟩ := rref_spec m W hrect
    exact ⟨by rw [he1]; rfl, by rw [he2]; rfl⟩

/-- Witness for C7: the source's `should_panic` test input
`eliminate(0, 1, 0)` on `[[0,1,2],[3,4,5]]`, and totality of the drivers on
the same matrix. -/
theorem zero_pivot_safety_witness :
    Matrix.entry [[0,1,2],[3,4,5]] 1 0 ≠ 0 ∧
    Matrix.entry [[0,1,2],[3,4,5]] 0 0 = 0 ∧
    Matrix.eliminate [[0,1,2],[3,4,5]] 0 1 0 = none ∧
    Rect [[0,1,2],[3,4,5]] 3 ∧
    (Matrix.ref [[0,1,2],[3,4,5]]).isSome ∧ (Matrix.rref [[0,1,2],[3,4,5]]).isSome := by
  have hrect : Rect [[0,1,2],[3,4,5]] 3 := by
    intro r hr
    simp only [List.mem_cons, List.not_mem_nil, or_false] at hr
    rcases hr with rfl | rfl <;> rfl
  have h1 : Matrix.entry [[0,1,2],[3,4,5]] 1 0 ≠ 0 := by
    norm_num [Matrix.entry, Matrix.rowD]
  have h2 : Matrix.entry [[0,1,2],[3,4,5]] 0 0 = 0 := by
    norm_num [Matrix.entry, Matrix.rowD]
  exact ⟨h1, h2, zero_pivot_safety.1 [[0,1,2],[3,4,5]] 0 1 0 h1 h2, hrect,
    zero_pivot_safety.2 [[0,1,2],[3,4,5]] 3 hrect⟩

/-! ### Claim C10: shape preservation -/

/-- C10: each of `leader_sort`, `eliminate` (with a nonzero pivot),
`eliminate_below_leader`, `eliminate_above_leader`, `normalize`, `ref`, and
`rref` preserves the height and the width of a rectangular matrix, and the
result is still rectangular. -/
theorem shape_preservation (W : ℕ) :
    (∀ m : Mat, Rect m W →
      (Matrix.leader_sort m).length = m.length ∧ Rect (Matrix.leader_sort m) W) ∧
    (∀ (m : Mat) (sel oth lc : ℕ) (m2 : Mat), Rect m W → sel < m.length → oth < m.length →
      Matrix.entry m sel lc ≠ 0 → Matrix.eliminate m sel oth lc = some m2 →
      m2.length = m.length ∧ Rect m2 W) ∧
    (∀ (m : Mat) (row : ℕ) (m2 : Mat), Rect m W →
      Matrix.eliminate_below_leader m row = some m2 → m2.length = m.length ∧ Rect m2 W) ∧
    (∀ (m : Mat) (row : ℕ) (m2 : Mat), Rect m W →
      Matrix.eliminate_above_leader m row = some m2 → m2.length = m.length ∧ Rect m2 W) ∧
    (∀ m : Mat, Rect m W →
      (Matrix.normalize m).length = m.length ∧ Rect (Matrix.normalize m) W) ∧
    (∀ (m : Mat) (m2 : Mat), Rect m W → Matrix.ref m = some m2 →
      m2.length = m.length ∧ Rect m2 W) ∧
    (∀ (m : Mat) (m2 : Mat), Rect m W → Matrix.rref m = some m2 →
      m2.length = m.length ∧ Rect m2 W) := by
  refine ⟨?_, ?_, ?_, ?_, ?_, ?_, ?_⟩
  · intro m hrect
    exact ⟨leader_sort_length m, leader_sort_rect hrect⟩
  · intro m sel oth lc m2 hrect hsel hoth hpiv he
    obtain ⟨m2b, heb, hlen, hrectb, _⟩ :=
      eliminate_cases sel oth lc hrect hsel hoth
        (by simpa [Matrix.entry, Matrix.rowD] using hpiv)
    rw [he] at heb
    obtain rfl : m2 = m2b := by simpa using heb
    exact ⟨hlen, hrectb⟩
  · intro m row m2 hrect he
    obtain ⟨m2b, heb, hlen, hrectb, _⟩ := eliminate_below_leader_spec m W row hrect
    rw [he] at heb
    obtain rfl : m2 = m2b := by simpa using heb
    exact ⟨hlen, hrectb⟩
  · intro m row m2 hrect he
    obtain ⟨m2b, heb, hlen, hrectb, _⟩ := eliminate_above_leader_spec m W row hrect
    rw [he] at heb
    obtain rfl : m2 = m2b := by simpa using heb
    exact ⟨hlen, hrectb⟩
  · intro m hrect
    exact ⟨normalize_mat_length m, normalize_mat_rect hrect⟩
  · intro m m2 hrect he
    obtain ⟨m2b, heb, hlen, hrectb, _⟩ := ref_spec m W hrect
    rw [he] at heb
    obtain rfl : m2 = m2b := by simpa using heb
    exact ⟨hlen, hrectb⟩
  · intro m m2 hrect he
    obtain ⟨m2b, heb, hlen, hrectb, _⟩ := rref_spec m W hrect
    rw [he] at heb
    obtain rfl : m2 = m2b := by simpa using heb
    exact ⟨hlen, hrectb⟩

/-- Witness for C10 at `[[1,2,3],[4,5,6],[7,8,9]]`: `leader_sort` and `rref`
preserve the 3-by-3 shape. -/
theorem shape_preservation_witness :
    Rect [[1,2,3],[4,5,6],[7,8,9]] 3 ∧
    ((Matrix.leader_sort [[1,2,3],[4,5,6],[7,8,9]]).length =
        ([[1,2,3],[4,5,6],[7,8,9]] : Mat).length ∧
      Rect (Matrix.leader_sort [[1,2,3],[4,5,6],[7,8,9]]) 3) ∧
    (([[1,0,-1],[0,1,2],[0,0,0]] : Mat).length = ([[1,2,3],[4,5,6],[7,8,9]] : Mat).length ∧
      Rect [[1,0,-1],[0,1,2],[0,0,0]] 3) := by
  have hrect : Rect [[1,2,3],[4,5,6],[7,8,9]] 3 := by
    intro r hr
    simp only [List.mem_cons, List.not_mem_nil, or_false] at hr
    rcases hr with rfl | rfl | rfl <;> rfl
  exact ⟨hrect, (shape_preservation 3).1 [[1,2,3],[4,5,6],[7,8,9]] hrect,
    (shape_preservation 3).2.2.2.2.2.2 [[1,2,3],[4,5,6],[7,8,9]] [[1,0,-1],[0,1,2],[0,0,0]]
      hrect (by with_unfolding_all rfl)⟩

/-! ### Claim C2: echelon ordering after `ref` -/

/-- C2: after `ref` completes on a rectangular matrix, any two rows `i < j`
that both have a leader column satisfy `leader(i) < leader(j)`, and every
all-zero row appears after every non-zero row. -/
theorem ref_echelon (m : Mat) (W : ℕ) (hrect : Rect m W) :
    ∃ m2, Matrix.ref m = some m2 ∧
      (∀ i j ci cj, i < j → j < m2.length →
        RowVec.leader_col (Matrix.rowD m2 i) = some ci →
        RowVec.leader_col (Matrix.rowD m2 j) = some cj → ci < cj) ∧
      (∀ i j, i < j → j < m2.length →
        RowVec.leader_col (Matrix.rowD m2 i) = none →
        RowVec.leader_col (Matrix.rowD m2 j) = none) := by
  obtain ⟨m2, he, _hlen, _hrect2, hech⟩ := ref_spec m W hrect
  refine ⟨m2, he, ?_, ?_⟩
  · intro i j ci cj hij _hjlen hci hcj
    exact hech.1 i j ci cj hij (by simpa [Matrix.rowD] using hci)
      (by simpa [Matrix.rowD] using hcj)
  · intro i j hij hjlen hni
    have h2 := hech.2 i j hij hjlen (by simpa [Matrix.rowD] using hni)
    simpa [Matrix.rowD] using h2

/-- Witness for C2 at `[[1,2,3],[4,5,6],[7,8,9]]`. -/
theorem ref_echelon_witness :
    Rect [[1,2,3],[4,5,6],[7,8,9]] 3 ∧
    ∃ m2, Matrix.ref [[1,2,3],[4,5,6],[7,8,9]] = some m2 ∧
      (∀ i j ci cj, i < j → j < m2.length →
        RowVec.leader_col (Matrix.rowD m2 i) = some ci →
        RowVec.leader_col (Matrix.rowD m2 j) = some cj → ci < cj) ∧
      (∀ i j, i < j → j < m2.length →
        RowVec.leader_col (Matrix.rowD m2 i) = none →
        RowVec.leader_col (Matrix.rowD m2 j) = none) := by
  have hrect : Rect [[1,2,3],[4,5,6],[7,8,9]] 3 := by
    intro r hr
    simp only [List.mem_cons, List.not_mem_nil, or_false] at hr
    rcases hr with rfl | rfl | rfl <;> rfl
  exact ⟨hrect, ref_echelon [[1,2,3],[4,5,6],[7,8,9]] 3 hrect⟩

/-! ### Claim C4: `leader_sort` ordering -/

/-- C4: `leader_sort` reorders the rows of a rectangular matrix (a
permutation) so that rows with smaller leader columns come before rows with
larger ones, and all-zero rows come after all rows with a leader. -/
theorem leader_sort_spec (m : Mat) (W : ℕ) (hrect : Rect m W) :
    List.Perm (Matrix.leader_sort m) m ∧
    (∀ i j ci cj, i < j → j < (Matrix.leader_sort m).length →
      RowVec.leader_col (Matrix.rowD (Matrix.leader_sort m) i) = some ci →
      RowVec.leader_col (Matrix.rowD (Matrix.leader_sort m) j) = some cj → ci ≤ cj) ∧
    (∀ i j, i < j → j < (Matrix.leader_sort m).length →
      RowVec.leader_col (Matrix.rowD (Matrix.leader_sort m) i) = none →
      RowVec.leader_col (Matrix.rowD (Matrix.leader_sort m) j) = none) := by
  have _h := hrect
  refine ⟨leader_sort_perm m, ?_, ?_⟩
  · intro i j ci cj hij hjlen hci hcj
    have hilen : i < (Matrix.leader_sort m).length := by omega
    have hle : Matrix.rowLe ((Matrix.leader_sort m).getD i [])
        ((Matrix.leader_sort m).getD j []) := by
      rw [getD_eq_getElem _ i [] hilen, getD_eq_getElem _ j [] hjlen]
      exact List.pairwise_iff_getElem.mp (leader_sort_sorted m) i j hilen hjlen hij
    exact (leader_mono_of_rowLe hle).2 ci cj (by simpa [Matrix.rowD] using hci)
      (by simpa [Matrix.rowD] using hcj)
  · intro i j hij hjlen hni
    have hilen : i < (Matrix.leader_sort m).length := by omega
    have hle : Matrix.rowLe ((Matrix.leader_sort m).getD i [])
        ((Matrix.leader_sort m).getD j []) := by
      rw [getD_eq_getElem _ i [] hilen, getD_eq_getElem _ j [] hjlen]
      exact List.pairwise_iff_getElem.mp (leader_sort_sorted m) i j hilen hjlen hij
    have h2 := (leader_mono_of_rowLe hle).1 (by simpa [Matrix.rowD] using hni)
    simpa [Matrix.rowD] using h2

/-- Witness for C4 at the `leader_sort` doctest matrix. -/
theorem leader_sort_spec_witness :
    Rect [[0,2,3,4],[2,3,6,3],[0,0,4,5],[0,0,0,3],[0,5,6,3],[0,0,0,0],[3,4,2,6]] 4 ∧
    (List.Perm
      (Matrix.leader_sort [[0,2,3,4],[2,3,6,3],[0,0,4,5],[0,0,0,3],[0,5,6,3],[0,0,0,0],[3,4,2,6]])
      [[0,2,3,4],[2,3,6,3],[0,0,4,5],[0,0,0,3],[0,5,6,3],[0,0,0,0],[3,4,2,6]] ∧
     (∀ i j ci cj, i < j →
       j < (Matrix.leader_sort
         [[0,2,3,4],[2,3,6,3],[0,0,4,5],[0,0,0,3],[0,5,6,3],[0,0,0,0],[3,4,2,6]]).length →
       RowVec.leader_col (Matrix.rowD (Matrix.leader_sort
         [[0,2,3,4],[2,3,6,3],[0,0,4,5],[0,0,0,3],[0,5,6,3],[0,0,0,0],[3,4,2,6]]) i) = some ci →
       RowVec.leader_col (Matrix.rowD (Matrix.leader_sort
         [[0,2,3,4],[2,3,6,3],[0,0,4,5],[0,0,0,3],[0,5,6,3],[0,0,0,0],[3,4,2,6]]) j) = some cj →
       ci ≤ cj) ∧
     (∀ i j, i < j →
       j < (Matrix.leader_sort
         [[0,2,3,4],[2,3,6,3],[0,0,4,5],[0,0,0,3],[0,5,6,3],[0,0,0,0],[3,4,2,6]]).length →
       RowVec.leader_col (Matrix.rowD (Matrix.leader_sort
         [[0,2,3,4],[2,3,6,3],[0,0,4,5],[0,0,0,3],[0,5,6,3],[0,0,0,0],[3,4,2,6]]) i) = none →
       RowVec.leader_col (Matrix.rowD (Matrix.leader_sort
         [[0,2,3,4],[2,3,6,3],[0,0,4,5],[0,0,0,3],[0,5,6,3],[0,0,0,0],[3,4,2,6]]) j) = none)) := by
  have hrect : Rect [[0,2,3,4],[2,3,6,3],[0,0,4,5],[0,0,0,3],[0,5,6,3],[0,0,0,0],[3,4,2,6]] 4 := by
    intro r hr
    simp only [List.mem_cons, List.not_mem_nil, or_false] at hr
    rcases hr with rfl | rfl | rfl | rfl | rfl | rfl | rfl <;> rfl
  exact ⟨hrect,
    leader_sort_spec [[0,2,3,4],[2,3,6,3],[0,0,4,5],[0,0,0,3],[0,5,6,3],[0,0,0,0],[3,4,2,6]] 4 hrect⟩

/-! ### Claim C3: the `eliminate` row operation -/

/-- C3: `eliminate(selected_row, other_row, leader_col)` is a no-op when the
target row's entry at `leader_col` is exactly zero; otherwise, with a nonzero
pivot `selected[leader_col]`, it replaces the target row with
`other + factor * selected` where `factor = -other[leader_col] / selected[leader_col]`,
the target row's entry at `leader_col` is exactly zero afterwards, and every
row other than `other_row` is unchanged. -/
theorem eliminate_spec (m : Mat) (W selected_row other_row lc : ℕ)
    (hrect : Rect m W) (hsel : selected_row < m.length) (hoth : other_row < m.length) :
    (Matrix.entry m other_row lc = 0 →
       Matrix.eliminate m selected_row other_row lc = some m) ∧
    (Matrix.entry m other_row lc ≠ 0 →
     Matrix.entry m selected_row lc ≠ 0 →
       ∃ m2, Matrix.eliminate m selected_row other_row lc = some m2 ∧
         (∀ i, Matrix.entry m2 other_row i =
            Matrix.entry m other_row i +
              -(Matrix.entry m other_row lc) / Matrix.entry m selected_row lc *
                Matrix.entry m selected_row i) ∧
         Matrix.entry m2 other_row lc = 0 ∧
         (∀ j, j ≠ other_row → Matrix.rowD m2 j = Matrix.rowD m j)) := by
  have hol : (Matrix.rowD m other_row).length = W := rect_rowD_length hrect hoth
  have hsl : (Matrix.rowD m selected_row).length = W := rect_rowD_length hrect hsel
  constructor
  · intro h0
    simp only [Matrix.entry] at h0
    simp only [Matrix.eliminate]
    rw [if_pos h0]
  · intro hne hpiv
    simp only [Matrix.entry, Matrix.rowD] at hne hpiv
    simp only [Matrix.rowD] at hol hsl
    refine ⟨m.set other_row
      (List.zipWith (· + ·) (m.getD other_row [])
        (RowVec.mul_assign (m.getD selected_row [])
          (-(m.getD other_row []).getD lc 0 / (m.getD selected_row []).getD lc 0))),
      ?_, ?_, ?_, ?_⟩
    · simp only [Matrix.eliminate, Matrix.rowD]
      rw [if_neg hne, if_neg hpiv, if_neg (by rw [hsl, hol]; simp)]
    · intro i
      simp only [Matrix.entry, Matrix.rowD]
      rw [getD_set_eq _ _ _ _ hoth]
      rw [zipWith_add_getD _ _ (by rw [hol, mul_assign_length, hsl]) i, mul_assign_getD]
      ring
    · simp only [Matrix.entry, Matrix.rowD]
      rw [getD_set_eq _ _ _ _ hoth]
      rw [zipWith_add_getD _ _ (by rw [hol, mul_assign_length, hsl]) lc, mul_assign_getD]
      generalize hb : (m.getD selected_row []).getD lc 0 = b at hpiv ⊢
      generalize (m.getD other_row []).getD lc 0 = a
      field_simp
      ring
    · intro j hj
      simp only [Matrix.rowD]
      rw [getD_set_ne _ _ _ (fun h => hj h.symm)]

/-- Witness for C3 at the doctest input `eliminate(0, 1, 1)` on
`[[0,2,3,4],[2,4,6,3]]`. -/
theorem eliminate_spec_witness :
    Matrix.entry [[0,2,3,4],[2,4,6,3]] 1 1 ≠ 0 ∧
    Matrix.entry [[0,2,3,4],[2,4,6,3]] 0 1 ≠ 0 ∧
    ∃ m2, Matrix.eliminate [[0,2,3,4],[2,4,6,3]] 0 1 1 = some m2 ∧
      (∀ i, Matrix.entry m2 1 i =
         Matrix.entry [[0,2,3,4],[2,4,6,3]] 1 i +
           -(Matrix.entry [[0,2,3,4],[2,4,6,3]] 1 1) / Matrix.entry [[0,2,3,4],[2,4,6,3]] 0 1 *
             Matrix.entry [[0,2,3,4],[2,4,6,3]] 0 i) ∧
      Matrix.entry m2 1 1 = 0 ∧
      (∀ j, j ≠ 1 → Matrix.rowD m2 j = Matrix.rowD [[0,2,3,4],[2,4,6,3]] j) :=
  ⟨by norm_num [Matrix.entry, Matrix.rowD],
   by norm_num [Matrix.entry, Matrix.rowD],
   (eliminate_spec [[0,2,3,4],[2,4,6,3]] 4 0 1 1
      (by intro r hr
          simp only [List.mem_cons, List.not_mem_nil, or_false] at hr
          rcases hr with rfl | rfl <;> rfl)
      (by norm_num) (by norm_num)).2
     (by norm_num [Matrix.entry, Matrix.rowD]) (by norm_num [Matrix.entry, Matrix.rowD])⟩

/-! ### Claim C8: row `normalize` -/

/-- C8: for every row, if the row has a leader column whose value is not
exactly 1, `normalize` multiplies every entry by the reciprocal of the
leader's value and the leader becomes exactly 1; if the row is all-zero or
empty it is unchanged; in particular `normalize [7,5,9] = [1, 5/7, 9/7]`. -/
theorem normalize_spec :
    (∀ (r : Row) (lc : ℕ), RowVec.leader_col r = some lc → r.getD lc 0 ≠ 1 →
        RowVec.normalize r = RowVec.mul_assign r (r.getD lc 0)⁻¹ ∧
        (RowVec.normalize r).getD lc 0 = 1) ∧
    (∀ r : Row, (∀ x ∈ r, x = 0) → RowVec.normalize r = r) ∧
    RowVec.normalize [7, 5, 9] = [1, 5/7, 9/7] := by
  refine ⟨?_, ?_, by with_unfolding_all rfl⟩
  · intro r lc hlc hne
    have heq : RowVec.normalize r = RowVec.mul_assign r (r.getD lc 0)⁻¹ := by
      simp only [RowVec.normalize, hlc]
      rw [if_pos hne]
    refine ⟨heq, ?_⟩
    rw [heq, mul_assign_getD]
    exact mul_inv_cancel₀ (leader_col_ne_zero hlc)
  · intro r hr
    simp only [RowVec.normalize, leader_col_none_iff.mpr hr]

/-- Witness for C8 at the spec's concrete row `[7,5,9]`. -/
theorem normalize_spec_witness :
    RowVec.leader_col [7, 5, 9] = some 0 ∧ ([(7:ℚ), 5, 9].getD 0 0 ≠ 1) ∧
    (RowVec.normalize [7, 5, 9] = RowVec.mul_assign [7, 5, 9] (([(7:ℚ), 5, 9].getD 0 0)⁻¹) ∧
     (RowVec.normalize [7, 5, 9]).getD 0 0 = 1) :=
  ⟨by with_unfolding_all rfl, by norm_num,
   normalize_spec.1 [7, 5, 9] 0 (by with_unfolding_all rfl) (by norm_num)⟩

/-! ### Machinery for `matrix_mul`: the accumulation loops -/

theorem replicate_getD_zero (c i : ℕ) : (List.replicate c (0 : ℚ)).getD i 0 = 0 := by
  rcases Nat.lt_or_ge i c with h | h
  · rw [getD_eq_getElem _ i 0 (by simpa using h), List.getElem_replicate]
  · exact List.getD_eq_default _ _ (by simpa using h)

theorem zeros_entry (r c j i : ℕ) : Matrix.entry (Matrix.zeros r c) j i = 0 := by
  simp only [Matrix.zeros, Matrix.entry, Matrix.rowD]
  split
  · simp
  · rcases Nat.lt_or_ge j r with hj | hj
    · rw [getD_eq_getElem _ j [] (by simpa using hj), List.getElem_replicate]
      exact replicate_getD_zero c i
    · have hd : (List.replicate r (RowVec.zeros c)).getD j [] = [] :=
        List.getD_eq_default _ _ (by simpa using hj)
      rw [hd]
      simp

theorem zeros_length_pos {r c : ℕ} (hr : 0 < r) (hc : 0 < c) :
    (Matrix.zeros r c).length = r := by
  simp only [Matrix.zeros]
  rw [if_neg (by omega)]
  simp

theorem zeros_rect (r c : ℕ) : Rect (Matrix.zeros r c) c := by
  intro row hrow
  simp only [Matrix.zeros] at hrow
  split at hrow
  · simp at hrow
  · rw [List.eq_of_mem_replicate hrow]
    simp [RowVec.zeros]

theorem setEntry_length (m : Mat) (j i : ℕ) (v : ℚ) :
    (Matrix.setEntry m j i v).length = m.length := by
  simp [Matrix.setEntry]

theorem setEntry_rect {m : Mat} {W : ℕ} (hrect : Rect m W) {j : ℕ} (hj : j < m.length)
    (i : ℕ) (v : ℚ) : Rect (Matrix.setEntry m j i v) W := by
  intro r hr
  simp only [Matrix.setEntry] at hr
  rcases List.mem_or_eq_of_mem_set hr with hr | rfl
  · exact hrect r hr
  · rw [List.length_set]
    exact rect_rowD_length hrect hj

theorem entry_setEntry {m : Mat} {W : ℕ} (hrect : Rect m W) {j i : ℕ}
    (hj : j < m.length) (hi : i < W) (v : ℚ) (j2 i2 : ℕ) :
    Matrix.entry (Matrix.setEntry m j i v) j2 i2 =
      if j2 = j ∧ i2 = i then v else Matrix.entry m j2 i2 := by
  simp only [Matrix.entry, Matrix.setEntry, Matrix.rowD]
  by_cases hjj : j2 = j
  · subst hjj
    rw [getD_set_eq _ _ _ _ hj]
    by_cases hii : i2 = i
    · subst hii
      rw [getD_set_eq _ _ _ _ (by rw [rect_getD_length hrect hj]; exact hi)]
      simp
    · rw [getD_set_ne _ _ _ (fun h => hii h.symm)]
      simp [hii]
  · rw [getD_set_ne _ _ _ (fun h => hjj h.symm)]
    simp [hjj]

theorem mul_kloop_spec (a b : Mat) (W j i : ℕ) :
    ∀ (n : ℕ) (N : Mat), Rect N W → j < N.length → i < W →
      ∃ N2, (List.range n).foldl (fun acc k =>
          Matrix.setEntry acc j i
            (Matrix.entry acc j i + Matrix.entry a j k * Matrix.entry b k i)) N = N2 ∧
        N2.length = N.length ∧ Rect N2 W ∧
        (∀ j2 i2, ¬(j2 = j ∧ i2 = i) → Matrix.entry N2 j2 i2 = Matrix.entry N j2 i2) ∧
        Matrix.entry N2 j i = Matrix.entry N j i +
          ∑ k ∈ Finset.range n, Matrix.entry a j k * Matrix.entry b k i
  | 0, N, hrect, _hj, _hi => ⟨N, by simp, rfl, hrect, fun _ _ _ => rfl, by simp⟩
  | n + 1, N, hrect, hj, hi => by
    obtain ⟨N1, he1, hlen1, hrect1, hframe1, hval1⟩ := mul_kloop_spec a b W j i n N hrect hj hi
    rw [List.range_succ, List.foldl_append, he1]
    simp only [List.foldl_cons, List.foldl_nil]
    refine ⟨_, rfl, ?_, ?_, ?_, ?_⟩
    · rw [setEntry_length, hlen1]
    · exact setEntry_rect hrect1 (by rw [hlen1]; exact hj) _ _
    · intro j2 i2 hne
      rw [entry_setEntry hrect1 (by rw [hlen1]; exact hj) hi _ j2 i2, if_neg hne]
      exact hframe1 j2 i2 hne
    · rw [entry_setEntry hrect1 (by rw [hlen1]; exact hj) hi _ j i, if_pos ⟨rfl, rfl⟩,
        hval1, Finset.sum_range_succ]
      ring

theorem mul_jloop_spec (a b : Mat) (W KW i : ℕ) :
    ∀ (n : ℕ) (N : Mat), Rect N W → n ≤ N.length → i < W →
      ∃ N2, (List.range n).foldl (fun acc j =>
          (List.range KW).foldl (fun acc2 k =>
            Matrix.setEntry acc2 j i
              (Matrix.entry acc2 j i + Matrix.entry a j k * Matrix.entry b k i)) acc) N = N2 ∧
        N2.length = N.length ∧ Rect N2 W ∧
        (∀ j2 i2, ¬(j2 < n ∧ i2 = i) → Matrix.entry N2 j2 i2 = Matrix.entry N j2 i2) ∧
        (∀ j2, j2 < n → Matrix.entry N2 j2 i = Matrix.entry N j2 i +
          ∑ k ∈ Finset.range KW, Matrix.entry a j2 k * Matrix.entry b k i)
  | 0, N, hrect, _hn, _hi => ⟨N, by simp, rfl, hrect, fun _ _ _ => rfl, by omega⟩
  | n + 1, N, hrect, hn, hi => by
    obtain ⟨N1, he1, hlen1, hrect1, hframe1, hval1⟩ := mul_jloop_spec a b W KW i n N hrect (by omega) hi
    obtain ⟨N2, he2, hlen2, hrect2, hframe2, hval2⟩ :=
      mul_kloop_spec a b W n i KW N1 hrect1
        (by rw [hlen1]; omega) hi
    rw [List.range_succ, List.foldl_append, he1]
    simp only [List.foldl_cons, List.foldl_nil]
    refine ⟨N2, he2, hlen2.trans hlen1, hrect2, ?_, ?_⟩
    · intro j2 i2 hne
      rw [hframe2 j2 i2 (fun h => hne ⟨by omega, h.2⟩)]
      exact hframe1 j2 i2 (fun h => hne ⟨by omega, h.2⟩)
    · intro j2 hj2
      rcases Nat.lt_or_ge j2 n with h | h
      · rw [hframe2 j2 i (fun hcon => by omega)]
        exact hval1 j2 h
      · have hj2n : j2 = n := by omega
        subst hj2n
        rw [hval2, hframe1 j2 i (fun hcon => by omega)]

theorem mul_iloop_spec (a b : Mat) (W KW H : ℕ) :
    ∀ (n : ℕ) (N : Mat), Rect N W → H ≤ N.length → n ≤ W →
      ∃ N2, (List.range n).foldl (fun acc i =>
          (List.range H).foldl (fun acc2 j =>
            (List.range KW).foldl (fun acc3 k =>
              Matrix.setEntry acc3 j i
                (Matrix.entry acc3 j i + Matrix.entry a j k * Matrix.entry b k i)) acc2) acc)
          N = N2 ∧
        N2.length = N.length ∧ Rect N2 W ∧
        (∀ j2 i2, ¬(j2 < H ∧ i2 < n) → Matrix.entry N2 j2 i2 = Matrix.entry N j2 i2) ∧
        (∀ j2 i2, j2 < H → i2 < n → Matrix.entry N2 j2 i2 = Matrix.entry N j2 i2 +
          ∑ k ∈ Finset.range KW, Matrix.entry a j2 k * Matrix.entry b k i2)
  | 0, N, hrect, _hH, _hn => ⟨N, by simp, rfl, hrect, fun _ _ _ => rfl, by omega⟩
  | n + 1, N, hrect, hH, hn => by
    obtain ⟨N1, he1, hlen1, hrect1, hframe1, hval1⟩ := mul_iloop_spec a b W KW H n N hrect hH (by omega)
    obtain ⟨N2, he2, hlen2, hrect2, hframe2, hval2⟩ :=
      mul_jloop_spec a b W KW n H N1 hrect1
        (by rw [hlen1]; exact hH) (by omega)
    rw [List.range_succ, List.foldl_append, he1]
    simp only [List.foldl_cons, List.foldl_nil]
    refine ⟨N2, he2, hlen2.trans hlen1, hrect2, ?_, ?_⟩
    · intro j2 i2 hne
      rw [hframe2 j2 i2 (fun hcon => hne ⟨hcon.1, by omega⟩)]
      exact hframe1 j2 i2 (fun hcon => hne ⟨hcon.1, by omega⟩)
    · intro j2 i2 hj2 hi2
      rcases Nat.lt_or_ge i2 n with h | h
      · rw [hframe2 j2 i2 (fun hcon => by omega)]
        exact hval1 j2 i2 hj2 h
      · have hi2n : i2 = n := by omega
        subst hi2n
        rw [hval2 j2 hj2, hframe1 j2 i2 (fun hcon => by omega)]

/-! ### Claim C5: `matrix_mul` -/

/-- C5: `matrix_mul`: two empty operands give the empty matrix; an empty
`self` with non-empty `other` fails with a dimension mismatch; otherwise
`self.width() == other.height()` is required (dimension-mismatch error when
it fails), and on success the result has shape `(self.height(), other.width())`
with entry `(j, i)` equal to the sum over `k` of `self[j][k] * other[k][i]`. -/
theorem matrix_mul_spec (a b : Mat) (W1 W2 : ℕ) (ha : Rect a W1) (hb : Rect b W2)
    (haW : a ≠ [] → 0 < W1) (hbW : b ≠ [] → 0 < W2) :
    (a = [] → b = [] → Matrix.matrix_mul a b = .ok []) ∧
    (a = [] → b ≠ [] → Matrix.matrix_mul a b =
      .error "multiplication of empty matrix with non-empty matrix") ∧
    (a ≠ [] → W1 ≠ b.length → Matrix.matrix_mul a b =
      .error ("multiplication of incompatible matrices: lhs width " ++ toString W1 ++
        " vs rhs height " ++ toString b.length)) ∧
    (a ≠ [] → W1 = b.length →
      ∃ c, Matrix.matrix_mul a b = .ok c ∧ c.length = a.length ∧ Rect c W2 ∧
        ∀ j i, j < a.length → i < W2 →
          Matrix.entry c j i =
            ∑ k ∈ Finset.range W1, Matrix.entry a j k * Matrix.entry b k i) := by
  refine ⟨?_, ?_, ?_, ?_⟩
  · rintro rfl rfl
    rfl
  · rintro rfl hbne
    cases b with
    | nil => exact absurd rfl hbne
    | cons r rs => simp [Matrix.matrix_mul]
  · intro hane hW
    have hapos : 0 < a.length := List.length_pos.mpr hane
    have ha0 : (Matrix.rowD a 0).length = W1 := rect_rowD_length ha hapos
    have hae : a.isEmpty = false := by
      cases a with
      | nil => exact absurd rfl hane
      | cons r rs => rfl
    simp only [Matrix.matrix_mul, hae, Bool.false_eq_true, false_and, if_false, ha0]
    rw [if_pos hW]
  · intro hane hW
    have hapos : 0 < a.length := List.length_pos.mpr hane
    have hbne : b ≠ [] := by
      intro hb2
      subst hb2
      have := haW hane
      simp at hW
      omega
    have hbpos : 0 < b.length := List.length_pos.mpr hbne
    have ha0 : (Matrix.rowD a 0).length = W1 := rect_rowD_length ha hapos
    have hb0 : (Matrix.rowD b 0).length = W2 := rect_rowD_length hb hbpos
    have hae : a.isEmpty = false := by
      cases a with
      | nil => exact absurd rfl hane
      | cons r rs => rfl
    have hNlen : (Matrix.zeros a.length W2).length = a.length :=
      zeros_length_pos hapos (hbW hbne)
    obtain ⟨N2, he, hlen, hrect2, _hframe, hval⟩ :=
      mul_iloop_spec a b W2 W1 a.length W2
        (Matrix.zeros a.length W2) (zeros_rect a.length W2) (by rw [hNlen]) le_rfl
    refine ⟨N2, ?_, hlen.trans hNlen, hrect2, ?_⟩
    · simp only [Matrix.matrix_mul, hae, Bool.false_eq_true, false_and, if_false, ha0, hb0]
      rw [if_neg (fun h => h hW), he]
    · intro j i hj hi
      rw [hval j i hj hi, zeros_entry, zero_add]

/-- Witness for C5 at the source's `matrix_mul` test input. -/
theorem matrix_mul_spec_witness :
    ([[3,4],[7,2],[1,5]] : Mat) ≠ [] ∧ (2 : ℕ) = ([[5,6,2,3],[8,3,9,7]] : Mat).length ∧
    ∃ c, Matrix.matrix_mul [[3,4],[7,2],[1,5]] [[5,6,2,3],[8,3,9,7]] = .ok c ∧
      c.length = ([[3,4],[7,2],[1,5]] : Mat).length ∧ Rect c 4 ∧
      ∀ j i, j < ([[3,4],[7,2],[1,5]] : Mat).length → i < 4 →
        Matrix.entry c j i = ∑ k ∈ Finset.range 2,
          Matrix.entry [[3,4],[7,2],[1,5]] j k * Matrix.entry [[5,6,2,3],[8,3,9,7]] k i := by
  have ha : Rect [[3,4],[7,2],[1,5]] 2 := by
    intro r hr
    simp only [List.mem_cons, List.not_mem_nil, or_false] at hr
    rcases hr with rfl | rfl | rfl <;> rfl
  have hb : Rect [[5,6,2,3],[8,3,9,7]] 4 := by
    intro r hr
    simp only [List.mem_cons, List.not_mem_nil, or_false] at hr
    rcases hr with rfl | rfl <;> rfl
  exact ⟨by simp, by simp,
    (matrix_mul_spec [[3,4],[7,2],[1,5]] [[5,6,2,3],[8,3,9,7]] 2 4 ha hb
      (fun _ => by omega) (fun _ => by omega)).2.2.2 (by simp) (by simp)⟩

/-! ### Claim C6: `add_assign` error behaviour -/

/-- C6: for rectangular matrices, if the heights differ `add_assign` fails
with the "different heights" message, and if the heights match (with at least
one row) but the widths differ it fails with the "different widths" message;
in both failure cases `self` is returned exactly unchanged. -/
theorem add_assign_mismatch (a b : Mat) (Wa Wb : ℕ) (ha : Rect a Wa) (hb : Rect b Wb) :
    (a.length ≠ b.length →
      Matrix.add_assign a b =
        (a, Except.error ("addition of matrices of different heights: " ++
          toString a.length ++ " vs " ++ toString b.length))) ∧
    (a.length = b.length → a ≠ [] → Wa ≠ Wb →
      Matrix.add_assign a b =
        (a, Except.error ("addition of matrices of different widths: " ++
          toString Wa ++ " vs " ++ toString Wb))) := by
  constructor
  · intro hlen
    simp only [Matrix.add_assign]
    rw [if_pos hlen]
  · intro hlen hne hW
    have hapos : 0 < a.length := List.length_pos.mpr hne
    have hbpos : 0 < b.length := by omega
    have hwa : (Matrix.rowD a 0).length = Wa := rect_rowD_length ha hapos
    have hwb : (Matrix.rowD b 0).length = Wb := rect_rowD_length hb hbpos
    simp only [Matrix.add_assign]
    rw [if_neg (by simpa using hlen), if_neg ?_, if_pos (by rw [hwa, hwb]; exact hW), hwa, hwb]
    cases a with
    | nil => exact absurd rfl hne
    | cons r rs => simp

/-- Witness for C6 at the source's `add_assign` mismatch tests. -/
theorem add_assign_mismatch_witness :
    (Matrix.add_assign [[3,5,7],[8,2,3],[9,2,3]] [[8,2,4],[1,6,7]] =
      ([[3,5,7],[8,2,3],[9,2,3]],
        Except.error ("addition of matrices of different heights: " ++
          toString ([[3,5,7],[8,2,3],[9,2,3]] : Mat).length ++ " vs " ++
          toString ([[8,2,4],[1,6,7]] : Mat).length))) ∧
    (Matrix.add_assign [[3,5],[8,2]] [[8,2,4],[1,6,7]] =
      ([[3,5],[8,2]],
        Except.error ("addition of matrices of different widths: " ++
          toString 2 ++ " vs " ++ toString 3))) := by
  have ha1 : Rect [[3,5,7],[8,2,3],[9,2,3]] 3 := by
    intro r hr
    simp only [List.mem_cons, List.not_mem_nil, or_false] at hr
    rcases hr with rfl | rfl | rfl <;> rfl
  have hb1 : Rect [[8,2,4],[1,6,7]] 3 := by
    intro r hr
    simp only [List.mem_cons, List.not_mem_nil, or_false] at hr
    rcases hr with rfl | rfl <;> rfl
  have ha2 : Rect [[3,5],[8,2]] 2 := by
    intro r hr
    simp only [List.mem_cons, List.not_mem_nil, or_false] at hr
    rcases hr with rfl | rfl <;> rfl
  exact
    ⟨(add_assign_mismatch [[3,5,7],[8,2,3],[9,2,3]] [[8,2,4],[1,6,7]] 3 3 ha1 hb1).1
        (by simp),
     (add_assign_mismatch [[3,5],[8,2]] [[8,2,4],[1,6,7]] 2 3 ha2 hb1).2
        (by simp) (by simp) (by omega)⟩

/-! ### Claim C9: concrete `rref` result -/

/-- C9: `rref` on the matrix built from the integer rows
`[[1,2,3],[4,5,6],[7,8,9]]` yields exactly `[[1,0,-1],[0,1,2],[0,0,0]]`. -/
theorem rref_concrete :
    Matrix.rref [[1,2,3],[4,5,6],[7,8,9]] = some [[1,0,-1],[0,1,2],[0,0,0]] := by
  with_unfolding_all rfl

end Aoclib
